import Mathlib

/-!
Verification of the layout engine of `git-tree` (main.go) and the reflog
reader (structs/reflog.go), as a shallow embedding in Lean.

Commits are identified by opaque hashes (modelled as `Nat`).  A commit's
committer timestamp is an `Int` (Go compares `time.Time` with `Before`,
i.e. strict `<`).  Go's `mapset.Set[string]` of references is modelled as a
`List String` used with membership-based operations; Go maps are modelled
as association lists with key-based lookup.  Go map iteration order is an
input of the model where it can influence the result (the enumeration order
of the `commits` map that seeds the chrono-topological pre-sort); wherever
the Go code only folds a commutative/idempotent update over a map or set,
the fold order is fixed by the list without loss of faithfulness.
-/

namespace GitTree

/-- Commit identifier (opaque 20-byte hash in Go, opaque `Nat` here). -/
abbrev Hash := Nat

/-- The per-commit data consumed by `arrangeCommits`: the ordered parent
list (`Commit.ParentHashes`), the committer timestamp
(`Commit.Committer.When`) and the reflog-derived reference labels
(`CommitInfo.References`). -/

structure CommitInfo where
  parents : List Hash
  time : Int
  references : List String
deriving DecidableEq

/-- One entry of the `commits` map. -/

abbrev CommitPair := Hash × CommitInfo

/-- Association-list lookup with decidable key equality (the model of
`m[k]` on a Go map). -/

def alookup {κ α : Type} [DecidableEq κ] (k : κ) : List (κ × α) → Option α
  | [] => none
  | e :: r => if e.1 = k then some e.2 else alookup k r

/-- Keys of an association list. -/

def keysOf {κ α : Type} (l : List (κ × α)) : List κ := l.map Prod.fst

/-- Boolean list membership. -/

def elemB {α : Type} [DecidableEq α] (x : α) : List α → Bool
  | [] => false
  | y :: r => if x = y then true else elemB x r

/-- Set intersection on lists (model of `mapset.Set.Intersect`). -/

def interL {α : Type} [DecidableEq α] (a b : List α) : List α :=
  a.filter (fun x => elemB x b)

/-- Boolean subset test on lists (model of `mapset.Set.IsSubset`). -/

def subB {α : Type} [DecidableEq α] (a b : List α) : Bool :=
  a.all (fun x => elemB x b)

/-- Keys of an association list `l` with no duplicates — the well-formedness
of a Go map image. -/

def NodupKeys {κ α : Type} (l : List (κ × α)) : Prop := (l.map Prod.fst).Nodup

instance decNodupKeys {κ α : Type} [DecidableEq κ] (l : List (κ × α)) :
    Decidable (NodupKeys l) :=
  inferInstanceAs (Decidable (l.map Prod.fst).Nodup)

def insKey {α : Type} (key : α → Int) (x : α) : List α → List α
  | [] => [x]
  | y :: r => if key y ≤ key x then y :: insKey key x r else x :: y :: r

/-- Stable insertion sort by an integer key. -/

def sortKey {α : Type} (key : α → Int) (l : List α) : List α :=
  l.foldl (fun acc x => insKey key x acc) []

def dedupAux {α : Type} [DecidableEq α] (seen : List α) : List α → List α
  | [] => []
  | x :: r => if elemB x seen then dedupAux seen r else x :: dedupAux (x :: seen) r

/-- Distinct elements of a list, first occurrences first. -/

def dedupKF {α : Type} [DecidableEq α] (l : List α) : List α := dedupAux [] l

def gapWalk : List Int → Int
  | [] => 0
  | [l] => l + 1
  | l1 :: l2 :: rest => if l2 - l1 > 1 then l1 + 1 else gapWalk (l2 :: rest)

/-- The track table: ref name to current track (`refsLevels` in the Go). -/

abbrev RefsLevels := List (String × Int)

/-- `gap(refsLevels, refs)` (main.go:314-336): for an empty table return 0
when `refs` else 1; otherwise sort the distinct level values ascending and
walk adjacent pairs. -/

def gap (refsLevels : RefsLevels) (refs : Bool) : Int :=
  if refsLevels.isEmpty then (if refs then 0 else 1)
  else gapWalk (sortKey id (dedupKF (refsLevels.map Prod.snd)))

/-- Map update `refsLevels[r] = x` (nodup-keys preserving). -/

def setRL (rl : RefsLevels) (k : String) (v : Int) : RefsLevels :=
  (k, v) :: rl.filter (fun e => decide (e.1 ≠ k))

/-- Map deletion `delete(refsLevels, name)`. -/

def delRL (rl : RefsLevels) (k : String) : RefsLevels :=
  rl.filter (fun e => decide (e.1 ≠ k))

/-! ### The chrono-topological sort (`ctsort`, main.go:209-263) -/

/-- `children[h]` with the empty set as default. -/

def childrenOf (children : List (Hash × List Hash)) (h : Hash) : List Hash :=
  (alookup h children).getD []

/-- The committer-timestamp pre-sort of the commit entries
(main.go:211-219). -/

def sortTime (l : List CommitPair) : List CommitPair :=
  sortKey (fun e => e.2.time) l

/-- The remaining-parents table seeded from the commit entries
(main.go:222-231). -/

def initParents (sc : List CommitPair) : List (Hash × List Hash) :=
  sc.map (fun e => (e.1, e.2.parents))

/-- Scan the candidate list front to back for the first commit whose
remaining-parents set is empty; return it and the list without it
(main.go:236-260). -/

def scanStep (ps : List (Hash × List Hash)) :
    List CommitPair → Option (CommitPair × List CommitPair)
  | [] => none
  | c :: rest =>
    if ((alookup c.1 ps).getD []).isEmpty then some (c, rest)
    else match scanStep ps rest with
      | some (d, rest2) => some (d, c :: rest2)
      | none => none

/-- Emitting `h` removes it from the remaining-parents set of every child in
`children[h]` (main.go:250-256). -/

def removeParent (ps : List (Hash × List Hash)) (childs : List Hash) (h : Hash) :
    List (Hash × List Hash) :=
  ps.map (fun e => if elemB e.1 childs then (e.1, e.2.filter (fun q => decide (q ≠ h))) else e)

/-- The emission loop of `ctsort` (main.go:234-261).  Fuel bounds the number
of successful scans; it is instantiated with the candidate-list length,
which always suffices because each successful scan removes one candidate.
When no candidate is parent-free the whole remainder is appended and the
loop stops. -/

def ctsortAux (children : List (Hash × List Hash)) :
    Nat → List (Hash × List Hash) → List CommitPair → List CommitPair
  | 0, _, sc => sc
  | Nat.succ fuel, ps, sc =>
    match scanStep ps sc with
    | none => sc
    | some (c, rest) =>
      c :: ctsortAux children fuel (removeParent ps (childrenOf children c.1) c.1) rest

/-- The chrono-topological sort: pre-sort the entries by committer
timestamp, then repeatedly emit the earliest parent-free candidate. -/

def ctsort (commits : List CommitPair) (children : List (Hash × List Hash)) :
    List CommitPair :=
  ctsortAux children (sortTime commits).length (initParents (sortTime commits))
    (sortTime commits)

/-! ### The per-commit placement (main.go:364-595) -/

/-- Character-list prefix test (model of Go's `name[:11] == "refs/heads/"`
check in `isHeadRef`, main.go:266-273). -/

def listStarts : List Char → List Char → Bool
  | [], _ => true
  | _ :: _, [] => false
  | a :: as, b :: bs => a = b && listStarts as bs

/-- `isHeadRef`: the ref name lies in the local-branch namespace. -/

def isHeadRef (name : String) : Bool :=
  listStarts "refs/heads/".data name.data

/-- `headChildren`: for every head commit that carries at least one
local-branch ref, its current children set (main.go:276-296). -/

def buildHeadChildren (heads : List (Hash × List String))
    (children : List (Hash × List Hash)) : List (Hash × List Hash) :=
  (heads.filter (fun e => e.2.any isHeadRef)).map (fun e => (e.1, childrenOf children e.1))

/-- Append `v` to the set at key `k`, creating the entry if missing. -/

def addToEntry (l : List (Hash × List Hash)) (k v : Hash) : List (Hash × List Hash) :=
  if (alookup k l).isSome then
    l.map (fun e => if e.1 = k then (e.1, e.2 ++ [v]) else e)
  else l ++ [(k, [v])]

/-- `childrenHead`: the transpose of `headChildren` (main.go:298-309). -/

def buildChildrenHead (headChildren : List (Hash × List Hash)) :
    List (Hash × List Hash) :=
  headChildren.foldl (fun acc e => e.2.foldl (fun a c => addToEntry a c e.1) acc) []

/-- The refs currently tracked at level `lvl` (the reverse index
`levelRefs` of main.go:433-441). -/

def refsAtLevel (rl : RefsLevels) (lvl : Int) : List String :=
  (rl.filter (fun e => decide (e.2 = lvl))).map Prod.fst

/-- The minimum of `refsLevels[r]` over `r ∈ currentRefs`, with the Go code's
`-1` sentinel for "none found" (main.go:478-485). -/

def minRefLevel (rl : RefsLevels) (currentRefs : List String) : Int :=
  currentRefs.foldl (fun m r =>
    match alookup r rl with
    | some lvl => if m = -1 ∨ lvl < m then lvl else m
    | none => m) (-1)

/-- The level of the first current ref found in the track table, `-1`
when none is found (main.go:520-525). -/

def firstLevel (rl : RefsLevels) : List String → Int
  | [] => -1
  | r :: rest =>
    match alookup r rl with
    | some lvl => lvl
    | none => firstLevel rl rest

/-- The per-parent candidate `xForParent` of Case 3 (main.go:443-537),
including the final `xForParent < 0 → gap(refs=true)` clamp.  Returns
`none` when the parent is not in the commit map (main.go:444-447). -/

def parentX (commitsLk : Hash → Option CommitInfo) (children : List (Hash × List Hash))
    (rl : RefsLevels) (locs : List (Hash × Int × Int))
    (activeRefs currentRefs : List String) (levels : List Int) (p : Hash) :
    Option (Hash × Int) :=
  match commitsLk p with
  | none => none
  | some parentInfo =>
    let parentTracked := interL parentInfo.references activeRefs
    let xFor : Int :=
      if subB parentTracked currentRefs then
        match alookup p locs with
        | some pos => pos.1
        | none => -1
      else if levels.any (fun lvl =>
          subB (interL (refsAtLevel rl lvl) currentRefs) parentTracked &&
          !(subB parentTracked (interL (refsAtLevel rl lvl) currentRefs))) then
        let m0 := minRefLevel rl currentRefs
        let m1 := if m0 = -1 then gap rl true else m0
        match alookup p locs with
        | some pos =>
          if m1 = pos.1 ∧ (childrenOf children p).length ≠ 1 then gap rl true else m1
        | none => m1
      else if parentTracked.isEmpty then
        match alookup p locs with
        | some pos => pos.1
        | none => -1
      else if levels.any (fun lvl =>
          subB (interL (refsAtLevel rl lvl) currentRefs) currentRefs &&
          subB currentRefs (interL (refsAtLevel rl lvl) currentRefs)) then
        firstLevel rl currentRefs
      else gap rl true
    some (p, if xFor < 0 then gap rl true else xFor)

/-- The minimum over the per-parent candidates, ignoring negatives — the Go
`min` accumulator with its `-1` sentinel (main.go:540-551); `none` plays the
role of `-1` and triggers the `gap(refs=true)` fallback. -/

def pxMin (px : List (Hash × Int)) : Option Int :=
  px.foldl (fun m e =>
    if (0 : Int) ≤ e.2 then
      match m with
      | none => some e.2
      | some v => if e.2 < v then some e.2 else some v
    else m) none

/-- The `x` chosen for one commit before the final non-negativity clamp
(main.go:371-556).  `future` is the hash list of `sorted_commits[i+2:]`. -/

def computeX (commitsLk : Hash → Option CommitInfo) (children : List (Hash × List Hash))
    (rl : RefsLevels) (locs : List (Hash × Int × Int))
    (ci : CommitInfo) (future : List Hash) : Int :=
  let refs := ci.references
  let activeRefs := keysOf rl
  if refs.isEmpty then
    let parentPositions := sortKey Prod.snd
      (ci.parents.filterMap (fun p => (alookup p locs).map (fun pos => (p, pos.1))))
    match parentPositions with
    | [] => gap rl false
    | (p, xp) :: _ =>
      if ((childrenOf children p).filter (fun c => elemB c future)).isEmpty then xp
      else gap rl false
  else if (interL refs activeRefs).isEmpty then
    gap rl true
  else
    let currentRefs := interL refs activeRefs
    let levels := dedupKF (rl.map Prod.snd)
    match pxMin (ci.parents.filterMap
        (parentX commitsLk children rl locs activeRefs currentRefs levels)) with
    | some m => m
    | none => gap rl true

/-- Remove `h` from the pending-children set of `head` inside
`headChildren` (main.go:573-580). -/

def remChild (hcl : List (Hash × List Hash)) (head h : Hash) : List (Hash × List Hash) :=
  hcl.map (fun e => if e.1 = head then (e.1, e.2.filter (fun q => decide (q ≠ h))) else e)

/-- Delete the refs of every seen head from the track table
(main.go:582-594). -/

def untrackSeen (heads : List (Hash × List String)) (seen : List Hash)
    (rl : RefsLevels) : RefsLevels :=
  seen.foldl (fun acc head =>
    match alookup head heads with
    | some refSlice => refSlice.foldl (fun a name => delRL a name) acc
    | none => acc) rl

/-- The engine-local mutable state of `arrangeCommits`. -/

structure LayoutState where
  refsLevels : RefsLevels
  locations : List (Hash × Int × Int)
  headChildren : List (Hash × List Hash)
  seenHeads : List Hash
deriving DecidableEq

/-- Process one commit of the sorted sequence: choose `x`, clamp it to be
non-negative, record the position with `y = len(locations)`, update the
levels of all its refs, run the head bookkeeping and untrack the seen heads
(main.go:364-595). -/

def stepCommit (commitsLk : Hash → Option CommitInfo)
    (heads : List (Hash × List String)) (children : List (Hash × List Hash))
    (childrenHead : List (Hash × List Hash)) (st : LayoutState)
    (cur : CommitPair) (future : List CommitPair) : LayoutState :=
  let x0 := computeX commitsLk children st.refsLevels st.locations cur.2
    (future.map Prod.fst)
  let x := if x0 < 0 then 0 else x0
  let locs := (cur.1, (x, (st.locations.length : Int))) :: st.locations
  let rl2 := cur.2.references.foldl (fun acc r => setRL acc r x) st.refsLevels
  let isHd := (alookup cur.1 heads).isSome
  let seen2 := if isHd then st.seenHeads ++ [cur.1] else st.seenHeads
  let hc2 :=
    if isHd then st.headChildren
    else match alookup cur.1 childrenHead with
      | some chHeads => chHeads.foldl (fun acc head => remChild acc head cur.1) st.headChildren
      | none => st.headChildren
  { refsLevels := untrackSeen heads seen2 rl2,
    locations := locs,
    headChildren := hc2,
    seenHeads := [] }

/-- Fold `stepCommit` over the tail of the sorted sequence; at each step the
suffix after the current commit is its future (main.go:364). -/

def processAll (commitsLk : Hash → Option CommitInfo)
    (heads : List (Hash × List String)) (children : List (Hash × List Hash))
    (childrenHead : List (Hash × List Hash)) :
    LayoutState → List CommitPair → LayoutState
  | st, [] => st
  | st, cur :: future =>
    processAll commitsLk heads children childrenHead
      (stepCommit commitsLk heads children childrenHead st cur future) future

/-- The full layout: chrono-topological sort, initial placement of the
first commit at `(0,0)` with all its refs at level 0 (main.go:344-361),
then the per-commit loop.  Returns `none` for an empty sorted sequence
(main.go:340-342). -/

def arrangeLayout (commits : List CommitPair) (heads : List (Hash × List String))
    (children : List (Hash × List Hash)) : Option LayoutState :=
  match ctsort commits children with
  | [] => none
  | first :: rest =>
    let hc := buildHeadChildren heads children
    some (processAll (fun p => alookup p commits) heads children
      (buildChildrenHead hc)
      { refsLevels := first.2.references.foldl (fun acc r => setRL acc r 0) [],
        locations := [(first.1, (0, 0))],
        headChildren := hc,
        seenHeads := [] }
      rest)

/-- `arrangeCommits`: the positions map produced by the layout
(main.go:197-598). -/

def arrangeCommits (commits : List CommitPair) (heads : List (Hash × List String))
    (children : List (Hash × List Hash)) : List (Hash × Int × Int) :=
  match arrangeLayout commits heads children with
  | none => []
  | some st => st.locations

/-! ### The reflog reader (`ReadReflogNewHashes`, structs/reflog.go:67-112)

The filesystem is abstracted: the reflog file is passed as
`Option (List String)` — `none` for a missing file (`os.ErrNotExist`) and
`some lines` for the sequence of lines delivered by `bufio.Scanner`.  Field
lengths are counted in characters (Go counts bytes; reflog hash fields are
ASCII, where the two coincide). -/

/-- A 20-byte git hash value. -/

abbrev GitHash := List Nat

/-- Whitespace for `strings.Fields` / `strings.TrimSpace` (the ASCII and
Latin-1 part of `unicode.IsSpace`). -/

def isSpaceChar (c : Char) : Bool :=
  c = ' ' || c = '\t' || c = '\n' || c = Char.ofNat 11 || c = Char.ofNat 12 ||
  c = '\r' || c = Char.ofNat 0x85 || c = Char.ofNat 0xA0

/-- Split a character list around runs of whitespace (`strings.Fields`). -/

def fieldsAux (cur : List Char) : List Char → List (List Char)
  | [] => if cur.isEmpty then [] else [cur.reverse]
  | c :: rest =>
    if isSpaceChar c then
      if cur.isEmpty then fieldsAux [] rest else cur.reverse :: fieldsAux [] rest
    else fieldsAux (c :: cur) rest

/-- `strings.Fields` on a string. -/

def fieldsOf (s : String) : List (List Char) := fieldsAux [] s.data

/-- `strings.TrimSpace`. -/

def trimSpace (s : String) : List Char :=
  ((s.data.dropWhile isSpaceChar).reverse.dropWhile isSpaceChar).reverse

/-- `encoding/hex.fromHexChar`. -/

def hexVal (c : Char) : Option Nat :=
  if '0' ≤ c ∧ c ≤ '9' then some (c.toNat - '0'.toNat)
  else if 'a' ≤ c ∧ c ≤ 'f' then some (c.toNat - 'a'.toNat + 10)
  else if 'A' ≤ c ∧ c ≤ 'F' then some (c.toNat - 'A'.toNat + 10)
  else none

/-- `encoding/hex.Decode` semantics with the error ignored: decode byte
pairs until an invalid character or a dangling odd character, returning the
bytes decoded before the error. -/

def decodeHexPairs : List Char → List Nat
  | [] => []
  | [_] => []
  | c1 :: c2 :: rest =>
    match hexVal c1, hexVal c2 with
    | some a, some b => (16 * a + b) :: decodeHexPairs rest
    | _, _ => []

/-- `plumbing.NewHash`: hex-decode (ignoring errors) and copy into a
zero-initialised 20-byte array. -/

def newHash (s : List Char) : GitHash :=
  let b := (decodeHexPairs s).take 20
  b ++ List.replicate (20 - b.length) 0

/-- `plumbing.Hash.IsZero`. -/

def isZeroHash (h : GitHash) : Bool := h.all (fun b => b = 0)

/-- The scanner loop of `ReadReflogNewHashes` (structs/reflog.go:83-109):
trim the line, skip empty and short lines, take the second field, require
length 40, decode, discard the zero hash, deduplicate via the `seen` set. -/

def reflogScan (seen : List GitHash) : List String → List GitHash
  | [] => []
  | line :: rest =>
    let l := trimSpace line
    if l.isEmpty then reflogScan seen rest
    else
      let fields := fieldsAux [] l
      match fields.get? 1 with
      | none => reflogScan seen rest
      | some newHex =>
        if newHex.length ≠ 40 then reflogScan seen rest
        else
          let h := newHash newHex
          if isZeroHash h then reflogScan seen rest
          else if elemB h seen then reflogScan seen rest
          else h :: reflogScan (h :: seen) rest

/-- `ReadReflogNewHashes` (structs/reflog.go:67-112).  `file` is the reflog
file contents, `none` when the file does not exist. -/

def ReadReflogNewHashes (gitDir refName : String) (file : Option (List String)) :
    Except String (List GitHash) :=
  if gitDir = "" ∨ refName = "" then Except.error "empty gitDir or refName"
  else match file with
    | none => Except.ok []
    | some lines => Except.ok (reflogScan [] lines)

/-- Declarative per-line contract: the new hash of a well-formed reflog
line — the second whitespace-separated field when it is 40 characters long
and decodes to a non-zero hash. -/

def lineNewHash (line : String) : Option GitHash :=
  match (fieldsAux [] (trimSpace line)).get? 1 with
  | none => none
  | some newHex =>
    if newHex.length = 40 ∧ isZeroHash (newHash newHex) = false then some (newHash newHex)
    else none

/-! ### Concrete scenario inputs -/

/-- Linear scenario, commit `A` (hash 1): root, labeled by `main`. -/

def linearA : CommitInfo := ⟨[], 0, ["refs/heads/main"]⟩

/-- Linear scenario, commit `B` (hash 2): child of `A`, labeled by `main`. -/

def linearB : CommitInfo := ⟨[1], 1, ["refs/heads/main"]⟩

/-- Linear scenario, commit `C` (hash 3): child of `B`, labeled by `main`. -/

def linearC : CommitInfo := ⟨[2], 2, ["refs/heads/main"]⟩

/-- Linear scenario: the three-commit single-branch commit map. -/

def linearCommits : List CommitPair := [(1, linearA), (2, linearB), (3, linearC)]

/-- Linear scenario: `main`'s head is at `C`. -/

def linearHeads : List (Hash × List String) := [(3, ["refs/heads/main"])]

/-- Linear scenario: children map. -/

def linearChildren : List (Hash × List Hash) := [(1, [2]), (2, [3])]

/-- Shallow scenario, commit `B` (hash 4): its only parent (hash 99) is not
in the commit map, as after a shallow clone; committer time 10. -/

def shallowB : CommitInfo := ⟨[99], 10, []⟩

/-- Shallow scenario, commit `C` (hash 5): child of `B`, committer time 5. -/

def shallowC : CommitInfo := ⟨[4], 5, []⟩

/-- Shallow scenario commit map: only `B` and `C`. -/

def shallowCommits : List CommitPair := [(4, shallowB), (5, shallowC)]

/-- Shallow scenario children map (as `collectCommits` builds it: an entry
for every parent hash, present in the map or not). -/

def shallowChildren : List (Hash × List Hash) := [(99, [4]), (4, [5])]

/-- Timestamp-tie scenario: two unrelated root commits with the same
committer timestamp. -/

def tieA : CommitInfo := ⟨[], 7, []⟩

/-- Timestamp-tie scenario: the second root, same timestamp as `tieA`. -/

def tieB : CommitInfo := ⟨[], 7, []⟩

/-- Timestamp-tie scenario: one enumeration order of the commit map. -/

def tieL1 : List CommitPair := [(1, tieA), (2, tieB)]

/-- Timestamp-tie scenario: the other enumeration order of the same map. -/

def tieL2 : List CommitPair := [(2, tieB), (1, tieA)]

/-- Ref-continuity scenario, commit `A` (hash 1): root on branch `t`. -/

def contA : CommitInfo := ⟨[], 0, ["refs/heads/t"]⟩

/-- Ref-continuity scenario, commit `P` (hash 2): root on branch `r`, and
the head tip of `r`, so `r` is untracked right after `P` is placed. -/

def contP : CommitInfo := ⟨[], 1, ["refs/heads/r"]⟩

/-- Ref-continuity scenario, commit `B` (hash 3): root on branch `u`,
placed between `P` and `C`, re-occupying track 1. -/

def contB : CommitInfo := ⟨[], 2, ["refs/heads/u"]⟩

/-- Ref-continuity scenario, commit `C` (hash 4): single child of `P`,
labeled by the same single ref `r` as `P`. -/

def contC : CommitInfo := ⟨[2], 3, ["refs/heads/r"]⟩

/-- Ref-continuity scenario commit map. -/

def contCommits : List CommitPair := [(1, contA), (2, contP), (3, contB), (4, contC)]

/-- Ref-continuity scenario: `r`'s head is at `P`. -/

def contHeads : List (Hash × List String) := [(2, ["refs/heads/r"])]

/-- Ref-continuity scenario children map. -/

def contChildren : List (Hash × List Hash) := [(2, [4])]

/-- Single-commit scenario: one root commit labeled by `main`. -/

def singleA : CommitInfo := ⟨[], 0, ["refs/heads/main"]⟩

/-- Single-commit scenario commit map. -/

def singleCommits : List CommitPair := [(1, singleA)]

/-- Single-commit scenario: `main`'s head is at the only commit. -/

def singleHeads : List (Hash × List String) := [(1, ["refs/heads/main"])]

/-! ### Concrete claim theorems and counterexamples -/

/-- C8: on three commits `A←B←C` with strictly increasing committer
timestamps, all labeled by the single ref `refs/heads/main` whose head is
at `C`, the layout places `A` at `(0,0)`, `B` at `(0,1)` and `C` at
`(0,2)`. -/

theorem elemB_eq_decide {α : Type} [DecidableEq α] (x : α) (l : List α) :
    elemB x l = decide (x ∈ l) := by
  induction l with
  | nil => simp [elemB]
  | cons y r ih =>
    by_cases h : x = y <;> simp [elemB, h, ih]

theorem elemB_iff {α : Type} [DecidableEq α] (x : α) (l : List α) :
    elemB x l = true ↔ x ∈ l := by
  rw [elemB_eq_decide]; simp

theorem alookup_some_mem {κ α : Type} [DecidableEq κ] {k : κ} {v : α}
    {l : List (κ × α)} (h : alookup k l = some v) : (k, v) ∈ l := by
  induction l with
  | nil => simp [alookup] at h
  | cons e r ih =>
    by_cases he : e.1 = k
    · simp only [alookup, he, if_pos] at h
      cases e with
      | mk a b =>
        simp only [Option.some.injEq] at h
        subst h
        cases he
        exact List.mem_cons_self _ _
    · simp only [alookup, he, if_neg, not_false_iff] at h
      exact List.mem_cons_of_mem _ (ih h)

theorem alookup_none_iff {κ α : Type} [DecidableEq κ] (k : κ) (l : List (κ × α)) :
    alookup k l = none ↔ k ∉ keysOf l := by
  induction l with
  | nil => simp [alookup, keysOf]
  | cons e r ih =>
    by_cases he : e.1 = k
    · simp [alookup, he, keysOf]
    · simp only [alookup, he, if_neg, not_false_iff, keysOf, List.map_cons,
        List.mem_cons, not_or]
      rw [keysOf] at ih
      constructor
      · intro hn
        exact ⟨fun hk => he hk.symm, (ih.1 hn)⟩
      · intro hn
        exact ih.2 hn.2

theorem alookup_isSome_iff {κ α : Type} [DecidableEq κ] (k : κ) (l : List (κ × α)) :
    (alookup k l).isSome = true ↔ k ∈ keysOf l := by
  cases h : alookup k l with
  | none => simp [Option.isSome]; exact (alookup_none_iff k l).1 h
  | some v =>
    simp [Option.isSome]
    have := alookup_some_mem h
    exact List.mem_map_of_mem Prod.fst this

theorem mem_alookup_of_nodup {κ α : Type} [DecidableEq κ] {k : κ} {v : α}
    {l : List (κ × α)} (hnd : NodupKeys l) (hm : (k, v) ∈ l) :
    alookup k l = some v := by
  induction l with
  | nil => simp at hm
  | cons e r ih =>
    rcases List.mem_cons.1 hm with h | h
    · cases h; simp [alookup]
    · have hne : e.1 ≠ k := by
        intro hek
        have : k ∈ r.map Prod.fst := List.mem_map_of_mem Prod.fst h
        rw [NodupKeys, List.map_cons, List.nodup_cons] at hnd
        exact hnd.1 (hek ▸ this)
      rw [NodupKeys, List.map_cons, List.nodup_cons] at hnd
      simp only [alookup, hne, if_neg, not_false_iff]
      exact ih hnd.2 h

/-- Entries of a nodup-keys association list are determined by their key. -/

theorem entry_unique {κ α : Type} [DecidableEq κ] {l : List (κ × α)}
    (hnd : NodupKeys l) {a b : κ × α} (ha : a ∈ l) (hb : b ∈ l)
    (hk : a.1 = b.1) : a = b := by
  have h1 : alookup a.1 l = some a.2 := mem_alookup_of_nodup hnd ha
  have h2 : alookup b.1 l = some b.2 := mem_alookup_of_nodup hnd hb
  rw [hk] at h1
  rw [h1] at h2
  cases a; cases b
  simp_all

/-! ### Stable sorting by an integer key

`sort.Slice` in Go is not stable in general, but every sort used by the
layout engine sorts either a list without key ties (`gap`'s distinct level
values) or a list short enough that Go's pdqsort runs its stable insertion
sort (`parentPositions`); the committer-timestamp pre-sort is applied to
the nondeterministic enumeration of the `commits` map, which is an explicit
input of the model.  All three are therefore modelled by one stable
insertion sort. -/

/-- Insert `x` after all elements whose key is `≤ key x` (stable insert). -/

theorem insKey_perm {α : Type} (key : α → Int) (x : α) (l : List α) :
    List.Perm (insKey key x l) (x :: l) := by
  induction l with
  | nil => exact List.Perm.refl _
  | cons y r ih =>
    by_cases h : key y ≤ key x
    · simp only [insKey, h, if_pos]
      exact (ih.cons y).trans (List.Perm.swap x y r)
    · simp only [insKey, h, if_neg, not_false_iff]
      exact List.Perm.refl _

theorem sortKey_perm {α : Type} (key : α → Int) (l : List α) :
    List.Perm (sortKey key l) l := by
  suffices h : ∀ acc : List α,
      List.Perm (l.foldl (fun acc x => insKey key x acc) acc) (l ++ acc) by
    simpa using h []
  induction l with
  | nil => intro acc; simp [List.Perm.refl]
  | cons x t ih =>
    intro acc
    have h1 : List.Perm ((x :: t).foldl (fun acc x => insKey key x acc) acc)
        (t ++ insKey key x acc) := ih _
    have h2 : List.Perm (t ++ insKey key x acc) (t ++ x :: acc) :=
      List.Perm.append_left t (insKey_perm key x acc)
    have h3 : List.Perm (t ++ x :: acc) (x :: (t ++ acc)) := List.perm_middle
    exact (h1.trans h2).trans h3

theorem mem_insKey {α : Type} (key : α → Int) (x a : α) (l : List α) :
    a ∈ insKey key x l ↔ a = x ∨ a ∈ l :=
  ⟨fun h => by simpa using (insKey_perm key x l).mem_iff.1 h,
   fun h => (insKey_perm key x l).symm.mem_iff.1 (by simpa using h)⟩

theorem insKey_pairwise {α : Type} (key : α → Int) (x : α) {l : List α}
    (hs : l.Pairwise (fun a b => key a ≤ key b)) :
    (insKey key x l).Pairwise (fun a b => key a ≤ key b) := by
  induction l with
  | nil => simp [insKey]
  | cons y r ih =>
    rw [List.pairwise_cons] at hs
    by_cases h : key y ≤ key x
    · simp only [insKey, h, if_pos, List.pairwise_cons]
      refine ⟨fun b hb => ?_, ih hs.2⟩
      rcases (mem_insKey key x b r).1 hb with hb | hb
      · exact hb ▸ h
      · exact hs.1 b hb
    · push_neg at h
      simp only [insKey, if_neg (not_le.2 h)]
      rw [List.pairwise_cons]
      constructor
      · intro b hb
        rcases List.mem_cons.1 hb with hb | hb
        · exact hb ▸ le_of_lt h
        · exact (le_of_lt h).trans (hs.1 b hb)
      · rw [List.pairwise_cons]
        exact hs

theorem sortKey_pairwise {α : Type} (key : α → Int) (l : List α) :
    (sortKey key l).Pairwise (fun a b => key a ≤ key b) := by
  suffices h : ∀ acc : List α, acc.Pairwise (fun a b => key a ≤ key b) →
      (l.foldl (fun acc x => insKey key x acc) acc).Pairwise (fun a b => key a ≤ key b) by
    exact h [] (by simp)
  induction l with
  | nil => intro acc hacc; exact hacc
  | cons x t ih => intro acc hacc; exact ih _ (insKey_pairwise key x hacc)

/-! ### Track bookkeeping: the `gap` helper and `refsLevels` updates -/

/-- Deduplicate keeping first occurrences (the contents of a Go set built
by repeated `Add`). -/

theorem mem_dedupAux {α : Type} [DecidableEq α] (x : α) :
    ∀ (l seen : List α), x ∈ dedupAux seen l ↔ x ∈ l ∧ x ∉ seen := by
  intro l
  induction l with
  | nil => intro seen; simp [dedupAux]
  | cons y r ih =>
    intro seen
    by_cases hy : elemB y seen = true
    · have hy' : y ∈ seen := (elemB_iff y seen).1 hy
      have hstep : dedupAux seen (y :: r) = dedupAux seen r := by
        simp only [dedupAux]; rw [if_pos hy]
      rw [hstep, ih seen]
      simp only [List.mem_cons]
      constructor
      · rintro ⟨hr, hs⟩; exact ⟨Or.inr hr, hs⟩
      · rintro ⟨hxy | hr, hs⟩
        · exact absurd (hxy ▸ hy') hs
        · exact ⟨hr, hs⟩
    · have hstep : dedupAux seen (y :: r) = y :: dedupAux (y :: seen) r := by
        simp only [dedupAux]; rw [if_neg hy]
      rw [hstep]
      have hys : y ∉ seen := fun h => hy ((elemB_iff y seen).2 h)
      rw [List.mem_cons, ih (y :: seen)]
      simp only [List.mem_cons]
      constructor
      · rintro (hxy | ⟨hr, hs⟩)
        · exact ⟨Or.inl hxy, hxy ▸ hys⟩
        · exact ⟨Or.inr hr, fun h => hs (Or.inr h)⟩
      · rintro ⟨hxy | hr, hs⟩
        · exact Or.inl hxy
        · by_cases hxy : x = y
          · exact Or.inl hxy
          · refine Or.inr ⟨hr, fun h => ?_⟩
            rcases h with h | h
            · exact hxy h
            · exact hs h

theorem mem_dedupKF {α : Type} [DecidableEq α] (x : α) (l : List α) :
    x ∈ dedupKF l ↔ x ∈ l := by
  rw [dedupKF, mem_dedupAux]; simp

theorem nodup_dedupAux {α : Type} [DecidableEq α] :
    ∀ (l seen : List α), (dedupAux seen l).Nodup := by
  intro l
  induction l with
  | nil => intro seen; simp [dedupAux]
  | cons y r ih =>
    intro seen
    by_cases hy : elemB y seen = true
    · have hstep : dedupAux seen (y :: r) = dedupAux seen r := by
        simp only [dedupAux]; rw [if_pos hy]
      rw [hstep]
      exact ih seen
    · have hstep : dedupAux seen (y :: r) = y :: dedupAux (y :: seen) r := by
        simp only [dedupAux]; rw [if_neg hy]
      rw [hstep, List.nodup_cons]
      refine ⟨fun hmem => ?_, ih (y :: seen)⟩
      exact ((mem_dedupAux y r (y :: seen)).1 hmem).2 (List.mem_cons_self y seen)

theorem nodup_dedupKF {α : Type} [DecidableEq α] (l : List α) :
    (dedupKF l).Nodup := nodup_dedupAux l []

/-- The adjacent-pair walk of `gap`: scan the ascending distinct levels and
return `levels[i]+1` at the first hole, else `max+1` (main.go:330-335). -/

theorem linear_branch_positions :
    alookup 1 (arrangeCommits linearCommits linearHeads linearChildren) = some (0, 0) ∧
    alookup 2 (arrangeCommits linearCommits linearHeads linearChildren) = some (0, 1) ∧
    alookup 3 (arrangeCommits linearCommits linearHeads linearChildren) = some (0, 2) := by
  decide

/-- C1 counterexample: on the shallow two-commit input, commit 5 is placed
at `y = 0` while its placed parent (commit 4, whose own parent is missing
from the commit map) is placed at `y = 1`, so `y(c) > y(p)` fails: the
missing parent blocks commit 4 in the sort and the remainder is flushed in
timestamp order. -/

theorem topo_order_counterexample :
    (5, shallowC) ∈ shallowCommits ∧ (4 : Hash) ∈ shallowC.parents ∧
    alookup 4 (arrangeCommits shallowCommits [] shallowChildren) = some (1, 1) ∧
    alookup 5 (arrangeCommits shallowCommits [] shallowChildren) = some (0, 0) ∧
    ¬((0 : Int) > 1) := by
  decide

/-- C4 counterexample: on the shallow two-commit input, `ctsort` emits
commit 5 before commit 4 although commit 4 is a parent of commit 5 and is
in the graph, because commit 4's own missing parent never leaves its
remaining-parents set and the fallback flushes the remainder in timestamp
order. -/

theorem ctsort_order_counterexample :
    ctsort shallowCommits shallowChildren = [(5, shallowC), (4, shallowB)] ∧
    (4 : Hash) ∈ shallowC.parents ∧ (4, shallowB) ∈ shallowCommits := by
  decide

/-- C3 counterexample: two enumeration orders of the same two-root commit
map (a permutation, hence the same map) with equal committer timestamps
yield different positions for commit 1, so the layout is not a function of
the map alone when timestamps tie. -/

theorem determinism_counterexample :
    List.Perm tieL1 tieL2 ∧ tieA.time = tieB.time ∧
    alookup 1 (arrangeCommits tieL1 [] []) = some (0, 0) ∧
    alookup 1 (arrangeCommits tieL2 [] []) = some (1, 1) := by
  decide

/-- C5 counterexample: commit 4 has exactly one parent (commit 2), shares
its single ref `refs/heads/r` with it, and no ref of the parent is missing
from commit 4's labels — yet `x(4) = 2 ≠ 1 = x(2)`, because commit 2 was
the head tip of `r`, so `r` left the track table right after commit 2's
emission and commit 4 fell into the new-refs case. -/

theorem ref_continuity_counterexample :
    contC.parents = [2] ∧
    (∀ r ∈ contP.references, r ∈ contC.references) ∧
    interL contC.references contP.references ≠ [] ∧
    alookup 2 (arrangeCommits contCommits contHeads contChildren) = some (1, 1) ∧
    alookup 4 (arrangeCommits contCommits contHeads contChildren) = some (2, 3) ∧
    (2 : Int) ≠ 1 := by
  decide

/-- C6 counterexample: when the head-tip commit is the first commit of the
emission order, the head bookkeeping is skipped (main.go:344-361 places the
first commit outside the loop), so immediately after its emission its
branch ref is still in the track table. -/

theorem track_reclaim_counterexample :
    alookup 1 singleHeads = some ["refs/heads/main"] ∧
    alookup 1 (arrangeCommits singleCommits singleHeads []) = some (0, 0) ∧
    (arrangeLayout singleCommits singleHeads []).map
      (fun st => alookup "refs/heads/main" st.refsLevels) = some (some 0) := by
  decide

/-- C7 counterexample: on the track table `{a ↦ 2, b ↦ 3}` the `gap`
helper returns 4, although 0 is a non-negative integer not among the
values — `gap` never returns a free track below the lowest occupied
level, so it does not return the smallest absent non-negative integer. -/

theorem gap_counterexample :
    gap [("a", 2), ("b", 3)] true = 4 ∧
    (0 : Int) ∉ ([("a", 2), ("b", 3)] : RefsLevels).map Prod.snd ∧
    (0 : Int) < 4 ∧ gap [] false = 1 := by
  decide

/-! ### Characterization of `gap` -/

theorem gapWalk_spec :
    ∀ (rest : List Int) (h0 : Int), (h0 :: rest).Pairwise (fun a b => a < b) →
      h0 < gapWalk (h0 :: rest) ∧ gapWalk (h0 :: rest) ∉ h0 :: rest ∧
      ∀ z : Int, h0 < z → z < gapWalk (h0 :: rest) → z ∈ h0 :: rest := by
  intro rest
  induction rest with
  | nil =>
    intro h0 _
    refine ⟨by simp [gapWalk], ?_, ?_⟩
    · simp [gapWalk]
    · intro z h1 h2
      simp only [gapWalk] at h2
      omega
  | cons l2 r2 ih =>
    intro h0 hs
    have hs' : (l2 :: r2).Pairwise (fun a b => a < b) := (List.pairwise_cons.1 hs).2
    have h0l2 : h0 < l2 := (List.pairwise_cons.1 hs).1 l2 (List.mem_cons_self l2 r2)
    have hr2 : ∀ w ∈ r2, l2 < w := (List.pairwise_cons.1 hs').1
    by_cases hg : l2 - h0 > 1
    · have hw : gapWalk (h0 :: l2 :: r2) = h0 + 1 := by
        simp only [gapWalk]; rw [if_pos hg]
      rw [hw]
      refine ⟨by omega, ?_, ?_⟩
      · intro hmem
        rcases List.mem_cons.1 hmem with h | hmem
        · omega
        · rcases List.mem_cons.1 hmem with h | hmem
          · omega
          · have := hr2 _ hmem; omega
      · intro z h1 h2; omega
    · have hw : gapWalk (h0 :: l2 :: r2) = gapWalk (l2 :: r2) := by
        simp only [gapWalk]; rw [if_neg hg]
      rw [hw]
      obtain ⟨ih1, ih2, ih3⟩ := ih l2 hs'
      refine ⟨by omega, ?_, ?_⟩
      · intro hmem
        rcases List.mem_cons.1 hmem with h | hmem
        · omega
        · exact ih2 hmem
      · intro z h1 h2
        by_cases hz : z = l2
        · rw [hz]
          exact List.mem_cons_of_mem h0 (List.mem_cons_self l2 r2)
        · have hzgt : l2 < z := by omega
          exact List.mem_cons_of_mem h0 (ih3 z hzgt h2)

theorem sorted_levels_facts (rl : RefsLevels) (hne : rl ≠ []) :
    ∃ h0 rest, sortKey id (dedupKF (rl.map Prod.snd)) = h0 :: rest ∧
      (h0 :: rest).Pairwise (fun a b => a < b) ∧
      (∀ z : Int, z ∈ h0 :: rest ↔ z ∈ rl.map Prod.snd) ∧
      (∀ v ∈ rl.map Prod.snd, h0 ≤ v) := by
  have hperm := sortKey_perm id (dedupKF (rl.map Prod.snd))
  have hmem : ∀ z : Int, z ∈ sortKey id (dedupKF (rl.map Prod.snd)) ↔ z ∈ rl.map Prod.snd := by
    intro z
    rw [hperm.mem_iff, mem_dedupKF]
  have hnd : (sortKey id (dedupKF (rl.map Prod.snd))).Nodup :=
    (hperm.nodup_iff).2 (nodup_dedupKF _)
  have hle := sortKey_pairwise id (dedupKF (rl.map Prod.snd))
  have hlt : (sortKey id (dedupKF (rl.map Prod.snd))).Pairwise (fun a b => a < b) := by
    have := List.Pairwise.and hle hnd
    exact this.imp (fun h => lt_of_le_of_ne h.1 h.2)
  cases hsl : sortKey id (dedupKF (rl.map Prod.snd)) with
  | nil =>
    exfalso
    cases rl with
    | nil => exact hne rfl
    | cons e r =>
      have : e.2 ∈ (e :: r).map Prod.snd := List.mem_map_of_mem Prod.snd (List.mem_cons_self e r)
      have := (hmem e.2).2 this
      rw [hsl] at this
      simp at this
  | cons h0 rest =>
    rw [hsl] at hlt hmem hle
    refine ⟨h0, rest, rfl, hlt, hmem, ?_⟩
    intro v hv
    rcases List.mem_cons.1 ((hmem v).2 hv) with h | h
    · exact h ▸ le_refl v
    · exact le_of_lt ((List.pairwise_cons.1 hlt).1 v h)

/-- The characterizing property of `gap` on a non-empty track table: it
returns the least integer that is strictly above the minimum occupied level
and not itself occupied. -/

theorem gap_spec (rl : RefsLevels) (b : Bool) (hne : rl ≠ []) :
    ∃ m, m ∈ rl.map Prod.snd ∧ (∀ v ∈ rl.map Prod.snd, m ≤ v) ∧
      m < gap rl b ∧ gap rl b ∉ rl.map Prod.snd ∧
      ∀ z : Int, m < z → z < gap rl b → z ∈ rl.map Prod.snd := by
  obtain ⟨h0, rest, hsl, hlt, hmem, hmin⟩ := sorted_levels_facts rl hne
  have hemp : rl.isEmpty = false := by
    cases rl with
    | nil => exact absurd rfl hne
    | cons e r => rfl
  have hgap : gap rl b = gapWalk (h0 :: rest) := by
    rw [gap, hemp]
    simp only [Bool.false_eq_true, if_false, hsl]
  obtain ⟨g1, g2, g3⟩ := gapWalk_spec rest h0 hlt
  refine ⟨h0, (hmem h0).1 (List.mem_cons_self h0 rest), hmin, ?_, ?_, ?_⟩
  · rw [hgap]; exact g1
  · rw [hgap]; intro hmem2; exact g2 ((hmem _).2 hmem2)
  · intro z hz1 hz2
    rw [hgap] at hz2
    exact (hmem z).1 (g3 z hz1 hz2)

/-- C7 (amended): for an empty track table `gap` returns 0 when `refs` and
1 otherwise; for a non-empty table it returns the least integer that is
strictly greater than the minimum occupied level and not occupied — not,
as claimed, the smallest non-negative integer absent from the table (free
tracks below the lowest occupied level are skipped, and an empty table
with `refs=false` yields 1). -/

theorem gap_characterization (rl : RefsLevels) (b : Bool) :
    (rl = [] → gap rl b = (if b then 0 else 1)) ∧
    (rl ≠ [] → ∃ m, m ∈ rl.map Prod.snd ∧ (∀ v ∈ rl.map Prod.snd, m ≤ v) ∧
      m < gap rl b ∧ gap rl b ∉ rl.map Prod.snd ∧
      ∀ z : Int, m < z → z < gap rl b → z ∈ rl.map Prod.snd) := by
  constructor
  · rintro rfl; rfl
  · exact gap_spec rl b

/-- Witness for C7 (amended): on the table `{a ↦ 0, b ↦ 2}` the value
returned by `gap` is not an occupied level. -/

theorem gap_characterization_witness :
    gap [("a", 0), ("b", 2)] true ∉ (([("a", 0), ("b", 2)] : RefsLevels)).map Prod.snd := by
  obtain ⟨m, _, _, _, hnot, _⟩ :=
    (gap_characterization [("a", 0), ("b", 2)] true).2 (by decide)
  exact hnot

/-- C10: `gap` of the empty table with `refs=false` is 1 (track 0 is left
unused); `gap` of the table with occupied levels `{2,3}` is 4, not 0; and
in general on a non-empty table `gap` returns a value strictly greater
than the minimum occupied level. -/

theorem gap_above_min :
    gap [] false = 1 ∧ gap [("a", 2), ("b", 3)] true = 4 ∧
    ∀ (rl : RefsLevels) (b : Bool), rl ≠ [] →
      ∃ m, m ∈ rl.map Prod.snd ∧ (∀ v ∈ rl.map Prod.snd, m ≤ v) ∧ m < gap rl b := by
  refine ⟨by decide, by decide, ?_⟩
  intro rl b hne
  obtain ⟨m, h1, h2, h3, _, _⟩ := gap_spec rl b hne
  exact ⟨m, h1, h2, h3⟩

/-- Witness for C10: on the table `{a ↦ 2, b ↦ 3}` the general bound gives
`2 < gap`, matching the concrete value 4. -/

theorem gap_above_min_witness :
    (2 : Int) < gap [("a", 2), ("b", 3)] false := by
  obtain ⟨m, hm, hmin, hlt⟩ := gap_above_min.2.2 [("a", 2), ("b", 3)] false (by decide)
  have h2 : m ≤ 2 := hmin 2 (by decide)
  have hm' : m = 2 ∨ m = 3 := by
    simpa using hm
  rcases hm' with h | h
  · exact h ▸ hlt
  · omega

/-! ### The reflog reader contract -/

theorem reflogScan_cons (seen : List GitHash) (line : String) (rest : List String) :
    reflogScan seen (line :: rest) =
      match lineNewHash line with
      | none => reflogScan seen rest
      | some h =>
        if elemB h seen then reflogScan seen rest
        else h :: reflogScan (h :: seen) rest := by
  rw [lineNewHash]
  by_cases he : (trimSpace line).isEmpty = true
  · have hnil : trimSpace line = [] := by
      cases h : trimSpace line with
      | nil => rfl
      | cons a b => rw [h] at he; simp [List.isEmpty] at he
    have hstep : reflogScan seen (line :: rest) = reflogScan seen rest := by
      simp only [reflogScan]; rw [if_pos he]
    rw [hstep, hnil]
    rfl
  · have hstep : reflogScan seen (line :: rest) =
        (match (fieldsAux [] (trimSpace line)).get? 1 with
        | none => reflogScan seen rest
        | some newHex =>
          if newHex.length ≠ 40 then reflogScan seen rest
          else
            if isZeroHash (newHash newHex) then reflogScan seen rest
            else if elemB (newHash newHex) seen then reflogScan seen rest
            else newHash newHex :: reflogScan (newHash newHex :: seen) rest) := by
      simp only [reflogScan]; rw [if_neg he]
    rw [hstep]
    cases hf : (fieldsAux [] (trimSpace line)).get? 1 with
    | none => rfl
    | some newHex =>
      show (if newHex.length ≠ 40 then reflogScan seen rest
          else
            if isZeroHash (newHash newHex) then reflogScan seen rest
            else if elemB (newHash newHex) seen then reflogScan seen rest
            else newHash newHex :: reflogScan (newHash newHex :: seen) rest) =
        (match (if newHex.length = 40 ∧ isZeroHash (newHash newHex) = false
            then some (newHash newHex) else none : Option GitHash) with
        | none => reflogScan seen rest
        | some h =>
          if elemB h seen then reflogScan seen rest
          else h :: reflogScan (h :: seen) rest)
      by_cases hlen : newHex.length = 40
      · rw [if_neg (show ¬(newHex.length ≠ 40) from fun h => h hlen)]
        by_cases hz : isZeroHash (newHash newHex) = true
        · rw [if_pos hz,
            if_neg (show ¬(newHex.length = 40 ∧ isZeroHash (newHash newHex) = false) from
              fun h => by rw [h.2] at hz; exact Bool.false_ne_true hz)]
        · have hcond : newHex.length = 40 ∧ isZeroHash (newHash newHex) = false :=
            ⟨hlen, by simpa using hz⟩
          rw [if_neg hz, if_pos hcond]
      · rw [if_pos hlen,
          if_neg (show ¬(newHex.length = 40 ∧ isZeroHash (newHash newHex) = false) from
            fun h => hlen h.1)]

theorem reflogScan_eq : ∀ (lines : List String) (seen : List GitHash),
    reflogScan seen lines = dedupAux seen (lines.filterMap lineNewHash) := by
  intro lines
  induction lines with
  | nil => intro seen; rfl
  | cons line rest ih =>
    intro seen
    rw [reflogScan_cons, List.filterMap_cons]
    cases hp : lineNewHash line with
    | none => exact ih seen
    | some h =>
      simp only
      by_cases hmem : elemB h seen = true
      · rw [if_pos hmem]
        have : dedupAux seen (h :: rest.filterMap lineNewHash) =
            dedupAux seen (rest.filterMap lineNewHash) := by
          simp only [dedupAux]; rw [if_pos hmem]
        rw [this]
        exact ih seen
      · rw [if_neg hmem]
        have : dedupAux seen (h :: rest.filterMap lineNewHash) =
            h :: dedupAux (h :: seen) (rest.filterMap lineNewHash) := by
          simp only [dedupAux]; rw [if_neg hmem]
        rw [this, ih (h :: seen)]

/-- C9: with non-empty `gitDir` and `refName`, `ReadReflogNewHashes` of a
missing reflog file is an empty result with no error, and on a present file
it returns, in file order, the new hash of every line whose second
whitespace-separated field is 40 characters long and decodes to a non-zero
hash (malformed lines are skipped), with duplicates after the first
occurrence dropped; the result carries no duplicates. -/

theorem ReadReflogNewHashes_spec (gitDir refName : String) (lines : List String)
    (hg : gitDir ≠ "") (hr : refName ≠ "") :
    ReadReflogNewHashes gitDir refName none = Except.ok [] ∧
    ReadReflogNewHashes gitDir refName (some lines) =
      Except.ok (dedupKF (lines.filterMap lineNewHash)) ∧
    (dedupKF (lines.filterMap lineNewHash)).Nodup := by
  have hcond : ¬(gitDir = "" ∨ refName = "") := by
    rintro (h | h)
    · exact hg h
    · exact hr h
  refine ⟨?_, ?_, nodup_dedupKF _⟩
  · rw [ReadReflogNewHashes, if_neg hcond]
  · rw [ReadReflogNewHashes, if_neg hcond, dedupKF, ← reflogScan_eq]

/-- Witness for C9 at a concrete repository path, ref name and reflog
file. -/

theorem ReadReflogNewHashes_witness :
    ReadReflogNewHashes ".git" "refs/heads/main" none = Except.ok [] ∧
    ReadReflogNewHashes ".git" "refs/heads/main"
      (some ["0000000000000000000000000000000000000000 aaaaaaaaaaaaaaaaaaaaaaaaaaaaaaaaaaaaaaaa m"]) =
      Except.ok (dedupKF
        (["0000000000000000000000000000000000000000 aaaaaaaaaaaaaaaaaaaaaaaaaaaaaaaaaaaaaaaa m"].filterMap
          lineNewHash)) := by
  have h := ReadReflogNewHashes_spec ".git" "refs/heads/main"
    ["0000000000000000000000000000000000000000 aaaaaaaaaaaaaaaaaaaaaaaaaaaaaaaaaaaaaaaa m"]
    (by decide) (by decide)
  exact ⟨h.1, h.2.1⟩

/-! ### Non-negative x and dense y -/

theorem stepCommit_locations (lk : Hash → Option CommitInfo)
    (heads : List (Hash × List String)) (children childrenHead : List (Hash × List Hash))
    (st : LayoutState) (cur : CommitPair) (future : List CommitPair) :
    (stepCommit lk heads children childrenHead st cur future).locations =
      (cur.1,
        ((if computeX lk children st.refsLevels st.locations cur.2 (future.map Prod.fst) < 0
          then 0
          else computeX lk children st.refsLevels st.locations cur.2 (future.map Prod.fst)),
         (st.locations.length : Int))) :: st.locations := rfl

theorem processAll_xy (lk : Hash → Option CommitInfo)
    (heads : List (Hash × List String)) (children childrenHead : List (Hash × List Hash)) :
    ∀ (rest : List CommitPair) (st : LayoutState),
      (∀ e ∈ st.locations, 0 ≤ e.2.1) →
      st.locations.map (fun e => e.2.2) =
        (List.range st.locations.length).reverse.map (fun n => (n : Int)) →
      (∀ e ∈ (processAll lk heads children childrenHead st rest).locations, 0 ≤ e.2.1) ∧
      (processAll lk heads children childrenHead st rest).locations.map (fun e => e.2.2) =
        (List.range (processAll lk heads children childrenHead st rest).locations.length).reverse.map
          (fun n => (n : Int)) := by
  intro rest
  induction rest with
  | nil => intro st h1 h2; exact ⟨h1, h2⟩
  | cons cur future ih =>
    intro st h1 h2
    refine ih (stepCommit lk heads children childrenHead st cur future) ?_ ?_
    · intro e he
      rw [stepCommit_locations] at he
      rcases List.mem_cons.1 he with h | h
      · subst h
        dsimp only
        split
        · exact le_refl 0
        · omega
      · exact h1 e h
    · rw [stepCommit_locations]
      simp only [List.map_cons, List.length_cons, h2]
      rw [List.range_succ, List.reverse_append]
      simp

/-- C2: every placed commit has a non-negative `x`, and the `y` values of
the placed commits, read newest-emission-first from the positions list, are
exactly `N-1, …, 1, 0` where `N` is the number of placed commits: each
commit's `y` is the number of commits already placed at its emission, and
the `y` set is `{0, …, N-1}`. -/

theorem arrange_xy (l : List CommitPair) (heads : List (Hash × List String))
    (children : List (Hash × List Hash)) (hnd : NodupKeys l) :
    (∀ e ∈ arrangeCommits l heads children, 0 ≤ e.2.1) ∧
    (arrangeCommits l heads children).map (fun e => e.2.2) =
      (List.range (arrangeCommits l heads children).length).reverse.map
        (fun n => (n : Int)) := by
  rw [arrangeCommits, arrangeLayout]
  cases hsc : ctsort l children with
  | nil => exact ⟨by intro e he; simp at he, rfl⟩
  | cons first rest =>
    simp only
    apply processAll_xy
    · intro e he
      rcases List.mem_cons.1 he with h | h
      · subst h; exact le_refl 0
      · simp at h
    · simp [List.range_succ]

/-- Witness for C2 on the linear three-commit scenario. -/

theorem arrange_xy_witness :
    (arrangeCommits linearCommits linearHeads linearChildren).map (fun e => e.2.2) =
      (List.range (arrangeCommits linearCommits linearHeads linearChildren).length).reverse.map
        (fun n => (n : Int)) :=
  (arrange_xy linearCommits linearHeads linearChildren (by decide)).2

/-! ### Track reclaim on head-tip emission -/

theorem alookup_cons {κ α : Type} [DecidableEq κ] (e : κ × α) (r : List (κ × α)) (k : κ) :
    alookup k (e :: r) = if e.1 = k then some e.2 else alookup k r := rfl

theorem alookup_delRL_self (rl : RefsLevels) (k : String) :
    alookup k (delRL rl k) = none := by
  induction rl with
  | nil => rfl
  | cons e r ih =>
    by_cases he : e.1 = k
    · have hd : decide (e.1 ≠ k) = false := by simp [he]
      simp only [delRL, List.filter_cons, hd]
      exact ih
    · have hd : decide (e.1 ≠ k) = true := by simp [he]
      simp only [delRL, List.filter_cons, hd, if_true]
      rw [alookup_cons, if_neg he]
      exact ih

theorem alookup_delRL_none (rl : RefsLevels) (k n : String)
    (h : alookup k rl = none) : alookup k (delRL rl n) = none := by
  induction rl with
  | nil => rfl
  | cons e r ih =>
    by_cases he : e.1 = k
    · rw [alookup_cons, if_pos he] at h
      exact absurd h (by simp)
    · rw [alookup_cons, if_neg he] at h
      by_cases hn : e.1 = n
      · have hd : decide (e.1 ≠ n) = false := by simp [hn]
        simp only [delRL, List.filter_cons, hd]
        exact ih h
      · have hd : decide (e.1 ≠ n) = true := by simp [hn]
        simp only [delRL, List.filter_cons, hd, if_true]
        rw [alookup_cons, if_neg he]
        exact ih h

theorem alookup_delRL_fold_none (names : List String) (rl : RefsLevels) (k : String)
    (h : alookup k rl = none) :
    alookup k (names.foldl (fun a name => delRL a name) rl) = none := by
  induction names generalizing rl with
  | nil => exact h
  | cons n rest ih => exact ih (delRL rl n) (alookup_delRL_none rl k n h)

theorem alookup_delRL_fold_mem (names : List String) (rl : RefsLevels) (k : String)
    (h : k ∈ names) :
    alookup k (names.foldl (fun a name => delRL a name) rl) = none := by
  induction names generalizing rl with
  | nil => simp at h
  | cons n rest ih =>
    rcases List.mem_cons.1 h with h | h
    · subst h
      exact alookup_delRL_fold_none rest (delRL rl k) k (alookup_delRL_self rl k)
    · exact ih (delRL rl n) h

theorem untrackSeen_none (heads : List (Hash × List String)) (seen : List Hash)
    (rl : RefsLevels) (k : String) (h : alookup k rl = none) :
    alookup k (untrackSeen heads seen rl) = none := by
  induction seen generalizing rl with
  | nil => exact h
  | cons hd rest ih =>
    rw [untrackSeen, List.foldl_cons]
    cases hh : alookup hd heads with
    | none => exact ih rl h
    | some names => exact ih _ (alookup_delRL_fold_none names rl k h)

theorem untrackSeen_last (heads : List (Hash × List String)) (seen : List Hash)
    (h : Hash) (names : List String) (rl : RefsLevels) (r : String)
    (hh : alookup h heads = some names) (hr : r ∈ names) :
    alookup r (untrackSeen heads (seen ++ [h]) rl) = none := by
  rw [untrackSeen, List.foldl_append, List.foldl_cons, List.foldl_nil, hh]
  exact alookup_delRL_fold_mem names _ r hr

/-- C6 (amended): for every commit processed by the per-commit loop — that
is, every commit but the first of the emission order — if the commit is a
head tip, then immediately after its processing step none of the refs whose
current tip it is remain in the track table.  (The counterexample shows the
first emitted commit is exempt: its placement at `(0,0)` happens outside
the loop and skips the head bookkeeping.) -/

theorem step_untracks_head_refs (lk : Hash → Option CommitInfo)
    (heads : List (Hash × List String)) (children childrenHead : List (Hash × List Hash))
    (st : LayoutState) (cur : CommitPair) (future : List CommitPair)
    (names : List String) (hh : alookup cur.1 heads = some names) :
    ∀ r ∈ names,
      alookup r (stepCommit lk heads children childrenHead st cur future).refsLevels = none := by
  intro r hr
  have hsome : (alookup cur.1 heads).isSome = true := by rw [hh]; rfl
  have hrl : (stepCommit lk heads children childrenHead st cur future).refsLevels =
      untrackSeen heads (st.seenHeads ++ [cur.1])
        (cur.2.references.foldl
          (fun acc s => setRL acc s
            (if computeX lk children st.refsLevels st.locations cur.2 (future.map Prod.fst) < 0
             then 0
             else computeX lk children st.refsLevels st.locations cur.2 (future.map Prod.fst)))
          st.refsLevels) := by
    rw [stepCommit]
    simp only [hsome, if_pos]
  rw [hrl]
  exact untrackSeen_last heads st.seenHeads cur.1 names _ r hh hr

/-- Witness for C6 (amended): in the linear scenario, processing the head
tip `C` removes `refs/heads/main` from the track table. -/

theorem step_untracks_head_refs_witness :
    alookup "refs/heads/main"
      (stepCommit (fun p => alookup p linearCommits) linearHeads linearChildren []
        { refsLevels := [("refs/heads/main", 0)],
          locations := [(2, (0, 1)), (1, (0, 0))],
          headChildren := [], seenHeads := [] }
        (3, linearC) []).refsLevels = none :=
  step_untracks_head_refs (fun p => alookup p linearCommits) linearHeads linearChildren []
    { refsLevels := [("refs/heads/main", 0)],
      locations := [(2, (0, 1)), (1, (0, 0))],
      headChildren := [], seenHeads := [] }
    (3, linearC) [] ["refs/heads/main"] (by decide) "refs/heads/main" (by decide)

/-! ### Ref continuity on a single tracked parent -/

theorem mem_interL {α : Type} [DecidableEq α] (x : α) (a b : List α) :
    x ∈ interL a b ↔ x ∈ a ∧ x ∈ b := by
  rw [interL, List.mem_filter, elemB_eq_decide]
  simp

theorem subB_iff {α : Type} [DecidableEq α] (a b : List α) :
    subB a b = true ↔ ∀ x ∈ a, x ∈ b := by
  rw [subB, List.all_eq_true]
  constructor
  · intro h x hx; exact (elemB_iff x b).1 (h x hx)
  · intro h x hx; exact (elemB_iff x b).2 (h x hx)

theorem isEmpty_false_of_mem {α : Type} {x : α} {l : List α} (h : x ∈ l) :
    l.isEmpty = false := by
  cases l with
  | nil => simp at h
  | cons a r => rfl

/-- C5 (amended): if the commit being placed has exactly one parent `p`,
the parent is in the commit map and already placed with a non-negative `x`,
every ref of `p` is also among the commit's labels, and at least one ref of
`p` is still active in the track table at this moment, then the commit is
placed at `x(c) = x(p)`.  (The counterexample shows the last condition is
needed: when the parent was a head tip its refs may have left the track
table, and the commit then claims a fresh gap instead.) -/

theorem step_ref_continuity (lk : Hash → Option CommitInfo)
    (heads : List (Hash × List String)) (children childrenHead : List (Hash × List Hash))
    (st : LayoutState) (cur : CommitPair) (future : List CommitPair)
    (p : Hash) (pInfo : CommitInfo) (xp yp : Int)
    (hpar : cur.2.parents = [p])
    (hlk : lk p = some pInfo)
    (hsub : ∀ r ∈ pInfo.references, r ∈ cur.2.references)
    (hact : ∃ r ∈ pInfo.references, r ∈ keysOf st.refsLevels)
    (hloc : alookup p st.locations = some (xp, yp))
    (hxp : 0 ≤ xp) :
    alookup cur.1 (stepCommit lk heads children childrenHead st cur future).locations =
      some (xp, (st.locations.length : Int)) := by
  obtain ⟨r, hrp, hrk⟩ := hact
  have hrc : r ∈ cur.2.references := hsub r hrp
  have hrefs_ne : cur.2.references.isEmpty = false := isEmpty_false_of_mem hrc
  have hrcur : r ∈ interL cur.2.references (keysOf st.refsLevels) :=
    (mem_interL r _ _).2 ⟨hrc, hrk⟩
  have hinter_ne : (interL cur.2.references (keysOf st.refsLevels)).isEmpty = false :=
    isEmpty_false_of_mem hrcur
  have hsubB : subB (interL pInfo.references (keysOf st.refsLevels))
      (interL cur.2.references (keysOf st.refsLevels)) = true := by
    rw [subB_iff]
    intro x hx
    obtain ⟨hx1, hx2⟩ := (mem_interL x _ _).1 hx
    exact (mem_interL x _ _).2 ⟨hsub x hx1, hx2⟩
  have hpx : parentX lk children st.refsLevels st.locations (keysOf st.refsLevels)
      (interL cur.2.references (keysOf st.refsLevels))
      (dedupKF (st.refsLevels.map Prod.snd)) p = some (p, xp) := by
    rw [parentX, hlk]
    simp only
    rw [if_pos hsubB, hloc]
    simp only
    rw [if_neg (not_lt.2 hxp)]
  have hcx : computeX lk children st.refsLevels st.locations cur.2 (future.map Prod.fst) = xp := by
    rw [computeX]
    simp only
    rw [if_neg (by rw [hrefs_ne]; exact Bool.false_ne_true)]
    rw [if_neg (by rw [hinter_ne]; exact Bool.false_ne_true)]
    rw [hpar, List.filterMap_cons, hpx, List.filterMap_nil]
    show (match pxMin [(p, xp)] with
      | some m => m
      | none => gap st.refsLevels true) = xp
    have : pxMin [(p, xp)] = some xp := by
      rw [pxMin, List.foldl_cons, List.foldl_nil]
      simp only
      rw [if_pos hxp]
    rw [this]
  rw [stepCommit_locations, alookup_cons, if_pos rfl, hcx, if_neg (not_lt.2 hxp)]

/-- Witness for C5 (amended): commit 2 of the linear scenario is placed on
its parent's track 0. -/

theorem step_ref_continuity_witness :
    alookup 2
      (stepCommit (fun p => alookup p linearCommits) linearHeads linearChildren []
        { refsLevels := [("refs/heads/main", 0)],
          locations := [(1, (0, 0))],
          headChildren := [], seenHeads := [] }
        (2, linearB) [(3, linearC)]).locations = some (0, (1 : Int)) :=
  step_ref_continuity (fun p => alookup p linearCommits) linearHeads linearChildren []
    { refsLevels := [("refs/heads/main", 0)],
      locations := [(1, (0, 0))],
      headChildren := [], seenHeads := [] }
    (2, linearB) [(3, linearC)] 1 linearA 0 0 (by decide) (by decide)
    (by decide) ⟨"refs/heads/main", by decide, by decide⟩ (by decide) (by decide)

/-! ### Properties of the chrono-topological sort -/

theorem scanStep_cons (ps : List (Hash × List Hash)) (a : CommitPair)
    (t : List CommitPair) :
    scanStep ps (a :: t) =
      if ((alookup a.1 ps).getD []).isEmpty then some (a, t)
      else match scanStep ps t with
        | some (d, rest2) => some (d, a :: rest2)
        | none => none := rfl

theorem scanStep_none (ps : List (Hash × List Hash)) :
    ∀ (l : List CommitPair), scanStep ps l = none →
      ∀ d ∈ l, ((alookup d.1 ps).getD []).isEmpty = false := by
  intro l
  induction l with
  | nil => intro _ d hd; simp at hd
  | cons a t ih =>
    intro h d hd
    rw [scanStep_cons] at h
    by_cases ha : ((alookup a.1 ps).getD []).isEmpty = true
    · rw [if_pos ha] at h
      exact absurd h (by simp)
    · rw [if_neg ha] at h
      rcases List.mem_cons.1 hd with hda | hdt
      · subst hda
        simpa using ha
      · cases hs : scanStep ps t with
        | none => exact ih hs d hdt
        | some v => rw [hs] at h; exact absurd h (by simp)

theorem scanStep_spec (ps : List (Hash × List Hash)) :
    ∀ (l : List CommitPair) (c : CommitPair) (rest : List CommitPair),
      scanStep ps l = some (c, rest) →
      ∃ l1 l2, l = l1 ++ c :: l2 ∧ rest = l1 ++ l2 ∧
        (∀ d ∈ l1, ((alookup d.1 ps).getD []).isEmpty = false) ∧
        ((alookup c.1 ps).getD []).isEmpty = true := by
  intro l
  induction l with
  | nil => intro c rest h; simp [scanStep] at h
  | cons a t ih =>
    intro c rest h
    rw [scanStep_cons] at h
    by_cases ha : ((alookup a.1 ps).getD []).isEmpty = true
    · rw [if_pos ha] at h
      obtain ⟨rfl, rfl⟩ : a = c ∧ t = rest := by
        constructor <;> [exact congrArg Prod.fst (Option.some.inj h);
          exact congrArg Prod.snd (Option.some.inj h)]
      exact ⟨[], t, rfl, rfl, by intro d hd; simp at hd, ha⟩
    · rw [if_neg ha] at h
      cases hs : scanStep ps t with
      | none => rw [hs] at h; exact absurd h (by simp)
      | some v =>
        rw [hs] at h
        obtain ⟨d, rest2⟩ := v
        obtain ⟨hdc, hrest⟩ : d = c ∧ a :: rest2 = rest :=
          ⟨congrArg Prod.fst (Option.some.inj h), congrArg Prod.snd (Option.some.inj h)⟩
        subst hdc
        subst hrest
        obtain ⟨l1, l2, ht, hr2, hblk, hrdy⟩ := ih d rest2 hs
        refine ⟨a :: l1, l2, by rw [ht]; rfl, by rw [hr2]; rfl, ?_, hrdy⟩
        intro d hd
        rcases List.mem_cons.1 hd with hda | hdl
        · subst hda
          simpa using ha
        · exact hblk d hdl

theorem alookup_removeParent (ps : List (Hash × List Hash)) (cs : List Hash)
    (h : Hash) (k : Hash) :
    alookup k (removeParent ps cs h) =
      (alookup k ps).map (fun v =>
        if elemB k cs then v.filter (fun q => decide (q ≠ h)) else v) := by
  induction ps with
  | nil => rfl
  | cons e r ih =>
    by_cases he : e.1 = k
    · subst he
      by_cases hc : elemB e.1 cs = true
      · simp only [removeParent, List.map_cons, hc, if_pos]
        rw [alookup_cons]
        simp only [if_pos rfl]
        rw [alookup_cons, if_pos rfl]
        simp [hc]
      · simp only [removeParent, List.map_cons, hc]
        rw [if_neg (by simpa using hc)]
        rw [alookup_cons, if_pos rfl, alookup_cons, if_pos rfl]
        simp [hc]
    · by_cases hc : elemB e.1 cs = true
      · simp only [removeParent, List.map_cons, hc, if_pos]
        rw [alookup_cons]
        simp only
        rw [if_neg he, alookup_cons, if_neg he]
        exact ih
      · simp only [removeParent, List.map_cons, hc]
        rw [if_neg (by simpa using hc)]
        rw [alookup_cons, if_neg he, alookup_cons, if_neg he]
        exact ih

theorem ctsortAux_perm (children : List (Hash × List Hash)) :
    ∀ (fuel : Nat) (ps : List (Hash × List Hash)) (sc : List CommitPair),
      List.Perm (ctsortAux children fuel ps sc) sc := by
  intro fuel
  induction fuel with
  | zero => intro ps sc; exact List.Perm.refl _
  | succ f ih =>
    intro ps sc
    show List.Perm (match scanStep ps sc with
      | none => sc
      | some (c, rest) =>
        c :: ctsortAux children f (removeParent ps (childrenOf children c.1) c.1) rest) sc
    cases hs : scanStep ps sc with
    | none => exact List.Perm.refl _
    | some v =>
      obtain ⟨c, rest⟩ := v
      show List.Perm
        (c :: ctsortAux children f (removeParent ps (childrenOf children c.1) c.1) rest) sc
      obtain ⟨l1, l2, hl, hr, _, _⟩ := scanStep_spec ps sc c rest hs
      have h1 : List.Perm (c :: ctsortAux children f
          (removeParent ps (childrenOf children c.1) c.1) rest) (c :: rest) :=
        (ih _ rest).cons c
      have h2 : List.Perm (c :: rest) sc := by
        rw [hr, hl]
        exact List.perm_middle.symm
      exact h1.trans h2

theorem exists_min_rank (rank : Hash → Nat) :
    ∀ (l : List CommitPair), l ≠ [] → ∃ c ∈ l, ∀ d ∈ l, rank c.1 ≤ rank d.1 := by
  intro l
  induction l with
  | nil => intro h; exact absurd rfl h
  | cons a t ih =>
    intro _
    cases t with
    | nil =>
      exact ⟨a, List.mem_cons_self a [], by
        intro d hd
        rcases List.mem_cons.1 hd with h | h
        · exact h ▸ le_refl _
        · simp at h⟩
    | cons b t2 =>
      obtain ⟨c, hc, hmin⟩ := ih (by simp)
      by_cases hr : rank a.1 ≤ rank c.1
      · refine ⟨a, List.mem_cons_self a _, ?_⟩
        intro d hd
        rcases List.mem_cons.1 hd with h | h
        · exact h ▸ le_refl _
        · exact hr.trans (hmin d h)
      · refine ⟨c, List.mem_cons_of_mem a hc, ?_⟩
        intro d hd
        rcases List.mem_cons.1 hd with h | h
        · exact h ▸ le_of_lt (not_le.1 hr)
        · exact hmin d h

theorem notElem_append_single (a h : Hash) (emitted : List Hash) :
    (!(elemB a (emitted ++ [h]))) = ((!(elemB a emitted)) && decide (a ≠ h)) := by
  rw [elemB_eq_decide, elemB_eq_decide]
  by_cases h1 : a ∈ emitted <;> by_cases h2 : a = h <;>
    simp [h1, h2, List.mem_append]

theorem scanStep_progress (rank : Hash → Nat) (ps : List (Hash × List Hash))
    (pending : List CommitPair) (emitted : List Hash)
    (hps : ∀ e ∈ pending, alookup e.1 ps =
      some (e.2.parents.filter (fun q => !(elemB q emitted))))
    (hclo : ∀ e ∈ pending, ∀ p ∈ e.2.parents, p ∈ emitted ∨ ∃ d ∈ pending, d.1 = p)
    (hrank : ∀ e ∈ pending, ∀ p ∈ e.2.parents, rank p < rank e.1)
    (hne : pending ≠ []) :
    ∃ c rest, scanStep ps pending = some (c, rest) := by
  cases hs : scanStep ps pending with
  | some v =>
    obtain ⟨c0, r0⟩ := v
    exact ⟨c0, r0, rfl⟩
  | none =>
    exfalso
    have hall := scanStep_none ps pending hs
    obtain ⟨c, hc, hmin⟩ := exists_min_rank rank pending hne
    have hlk := hps c hc
    have hempty := hall c hc
    rw [hlk] at hempty
    simp only [Option.getD_some] at hempty
    have hfil : c.2.parents.filter (fun q => !(elemB q emitted)) ≠ [] := by
      intro hnil
      rw [hnil] at hempty
      simp at hempty
    obtain ⟨p, hpmem⟩ := List.exists_mem_of_ne_nil _ hfil
    obtain ⟨hp_par, hp_ne⟩ := List.mem_filter.1 hpmem
    have hpe : p ∉ emitted := by
      rw [elemB_eq_decide] at hp_ne
      simpa using hp_ne
    rcases hclo c hc p hp_par with hmem | ⟨d, hd, hdp⟩
    · exact hpe hmem
    · have h1 : rank c.1 ≤ rank d.1 := hmin d hd
      have h2 : rank p < rank c.1 := hrank c hc p hp_par
      rw [hdp] at h1
      omega

theorem ctsortAux_main (children : List (Hash × List Hash)) (rank : Hash → Nat) :
    ∀ (fuel : Nat) (pending : List CommitPair) (ps : List (Hash × List Hash))
      (emitted : List Hash),
      pending.length ≤ fuel →
      (∀ e ∈ pending, alookup e.1 ps =
        some (e.2.parents.filter (fun q => !(elemB q emitted)))) →
      (∀ e ∈ pending, ∀ p ∈ e.2.parents, p ∈ emitted ∨ ∃ d ∈ pending, d.1 = p) →
      (∀ e ∈ pending, ∀ p ∈ e.2.parents, rank p < rank e.1) →
      (∀ e ∈ pending, ∀ p ∈ e.2.parents, e.1 ∈ childrenOf children p) →
      pending.Pairwise (fun a b => a.2.time ≤ b.2.time) →
      (∀ j e, (ctsortAux children fuel ps pending).get? j = some e →
        ∀ p ∈ e.2.parents, p ∈ emitted ∨
          ∃ i d, i < j ∧ (ctsortAux children fuel ps pending).get? i = some d ∧ d.1 = p) ∧
      (∀ k j ek ej, k ≤ j →
        (ctsortAux children fuel ps pending).get? k = some ek →
        (ctsortAux children fuel ps pending).get? j = some ej →
        (∀ p ∈ ej.2.parents,
          p ∈ emitted ++ ((ctsortAux children fuel ps pending).take k).map Prod.fst) →
        ek.2.time ≤ ej.2.time) := by
  intro fuel
  induction fuel with
  | zero =>
    intro pending ps emitted hlen hps hclo hrank hcon hsorted
    have hpe : pending = [] := List.length_eq_zero.1 (Nat.le_zero.1 hlen)
    subst hpe
    constructor
    · intro j e hj; simp [ctsortAux] at hj
    · intro k j ek ej _ hk; simp [ctsortAux] at hk
  | succ f ih =>
    intro pending ps emitted hlen hps hclo hrank hcon hsorted
    cases pending with
    | nil =>
      constructor
      · intro j e hj
        have hnil : ctsortAux children (Nat.succ f) ps [] = [] := rfl
        rw [hnil] at hj; simp at hj
      · intro k j ek ej _ hk
        have hnil : ctsortAux children (Nat.succ f) ps [] = [] := rfl
        rw [hnil] at hk; simp at hk
    | cons a t =>
      obtain ⟨c, rest, hs⟩ :=
        scanStep_progress rank ps (a :: t) emitted hps hclo hrank (by simp)
      have hout : ctsortAux children (Nat.succ f) ps (a :: t) =
          c :: ctsortAux children f (removeParent ps (childrenOf children c.1) c.1) rest := by
        show (match scanStep ps (a :: t) with
          | none => a :: t
          | some (c, rest) =>
            c :: ctsortAux children f (removeParent ps (childrenOf children c.1) c.1) rest) =
          _
        rw [hs]
      obtain ⟨l1, l2, hl, hr, hblk, hrdy⟩ := scanStep_spec ps (a :: t) c rest hs
      have hcmem : c ∈ a :: t := by
        rw [hl]; exact List.mem_append.2 (Or.inr (List.mem_cons_self c l2))
      have hcready : ∀ p ∈ c.2.parents, p ∈ emitted := by
        have hlk := hps c hcmem
        have hrdy2 := hrdy
        rw [hlk] at hrdy2
        simp only [Option.getD_some] at hrdy2
        have hnil : c.2.parents.filter (fun q => !(elemB q emitted)) = [] := by
          cases hq : c.2.parents.filter (fun q => !(elemB q emitted)) with
          | nil => rfl
          | cons x xs => rw [hq] at hrdy2; simp at hrdy2
        intro p hp
        by_contra hpe
        have hmem2 : p ∈ c.2.parents.filter (fun q => !(elemB q emitted)) := by
          rw [List.mem_filter]
          refine ⟨hp, ?_⟩
          rw [elemB_eq_decide]
          simpa using hpe
        rw [hnil] at hmem2
        simp at hmem2
      have hrest_sub : ∀ e ∈ rest, e ∈ a :: t := by
        intro e he
        rw [hr] at he
        rw [hl]
        rcases List.mem_append.1 he with h1 | h1
        · exact List.mem_append.2 (Or.inl h1)
        · exact List.mem_append.2 (Or.inr (List.mem_cons_of_mem c h1))
      have hps2 : ∀ e ∈ rest,
          alookup e.1 (removeParent ps (childrenOf children c.1) c.1) =
            some (e.2.parents.filter (fun q => !(elemB q (emitted ++ [c.1])))) := by
        intro e he
        have hmem := hrest_sub e he
        rw [alookup_removeParent, hps e hmem, Option.map_some']
        by_cases hec : elemB e.1 (childrenOf children c.1) = true
        · rw [if_pos hec, List.filter_filter]
          congr 1
          apply List.filter_congr
          intro q _
          rw [notElem_append_single q c.1 emitted]
          rw [Bool.and_comm]
        · rw [if_neg (by simpa using hec)]
          congr 1
          apply List.filter_congr
          intro q hq
          have hninc : e.1 ∉ childrenOf children c.1 :=
            fun hin => hec ((elemB_iff _ _).2 hin)
          have hqc : q ≠ c.1 := by
            intro hqc
            apply hninc
            have := hcon e hmem q hq
            rw [hqc] at this
            exact this
          rw [elemB_eq_decide, elemB_eq_decide]
          by_cases hqe : q ∈ emitted <;> simp [hqe, List.mem_append, hqc]
      have hclo2 : ∀ e ∈ rest, ∀ p ∈ e.2.parents,
          p ∈ emitted ++ [c.1] ∨ ∃ d ∈ rest, d.1 = p := by
        intro e he p hp
        rcases hclo e (hrest_sub e he) p hp with h1 | ⟨d, hd, hdp⟩
        · exact Or.inl (List.mem_append.2 (Or.inl h1))
        · rw [hl] at hd
          rcases List.mem_append.1 hd with h2 | h2
          · exact Or.inr ⟨d, by rw [hr]; exact List.mem_append.2 (Or.inl h2), hdp⟩
          · rcases List.mem_cons.1 h2 with h3 | h3
            · left
              rw [← hdp, h3]
              exact List.mem_append.2 (Or.inr (List.mem_cons_self _ _))
            · exact Or.inr ⟨d, by rw [hr]; exact List.mem_append.2 (Or.inr h3), hdp⟩
      have hrank2 : ∀ e ∈ rest, ∀ p ∈ e.2.parents, rank p < rank e.1 :=
        fun e he => hrank e (hrest_sub e he)
      have hcon2 : ∀ e ∈ rest, ∀ p ∈ e.2.parents, e.1 ∈ childrenOf children p :=
        fun e he => hcon e (hrest_sub e he)
      have hsub_rest : List.Sublist rest (a :: t) := by
        rw [hr, hl]
        exact ((List.Sublist.refl l2).cons c).append_left l1
      have hsorted2 : rest.Pairwise (fun a b => a.2.time ≤ b.2.time) :=
        List.Pairwise.sublist hsub_rest hsorted
      have hlen2 : rest.length ≤ f := by
        have e2 : rest.length + 1 = (a :: t).length := by
          rw [hr, hl]
          simp only [List.length_append, List.length_cons]
          omega
        omega
      obtain ⟨ihtopo, ihchrono⟩ :=
        ih rest (removeParent ps (childrenOf children c.1) c.1) (emitted ++ [c.1])
          hlen2 hps2 hclo2 hrank2 hcon2 hsorted2
      rw [hout]
      constructor
      · intro j e hj p hp
        cases j with
        | zero =>
          have hec : c = e := by simpa using hj
          rw [← hec] at hp
          exact Or.inl (hcready p hp)
        | succ j' =>
          have hj' : (ctsortAux children f
              (removeParent ps (childrenOf children c.1) c.1) rest).get? j' = some e := by
            simpa using hj
          rcases ihtopo j' e hj' p hp with h1 | ⟨i, d, hij, hid, hdp⟩
          · rcases List.mem_append.1 h1 with h2 | h2
            · exact Or.inl h2
            · right
              refine ⟨0, c, Nat.succ_pos j', by simp, ?_⟩
              have hpc : p = c.1 := by simpa using h2
              exact hpc.symm
          · right
            exact ⟨i + 1, d, Nat.succ_lt_succ hij, by simpa using hid, hdp⟩
      · intro k j ek ej hkj hk hj hpall
        cases k with
        | zero =>
          have hek : c = ek := by simpa using hk
          rw [← hek]
          cases j with
          | zero =>
            have hej : c = ej := by simpa using hj
            rw [← hej]
          | succ j' =>
            have hj' : (ctsortAux children f
                (removeParent ps (childrenOf children c.1) c.1) rest).get? j' = some ej := by
              simpa using hj
            have hpemit : ∀ p ∈ ej.2.parents, p ∈ emitted := by
              intro p hp
              have := hpall p hp
              simpa using this
            have hejo : ej ∈ ctsortAux children f
                (removeParent ps (childrenOf children c.1) c.1) rest := List.get?_mem hj'
            have hejr : ej ∈ rest := (ctsortAux_perm children f _ rest).mem_iff.1 hejo
            rw [hr] at hejr
            have hejl2 : ej ∈ l2 := by
              rcases List.mem_append.1 hejr with h1 | h1
              · exfalso
                have hb := hblk ej h1
                have hlk := hps ej (by rw [hl]; exact List.mem_append.2 (Or.inl h1))
                rw [hlk] at hb
                simp only [Option.getD_some] at hb
                have hnil2 : ej.2.parents.filter (fun q => !(elemB q emitted)) = [] := by
                  rw [List.filter_eq_nil]
                  intro q hq
                  rw [elemB_eq_decide]
                  simpa using hpemit q hq
                rw [hnil2] at hb
                simp at hb
              · exact h1
            have hpw : (c :: l2).Pairwise (fun a b => a.2.time ≤ b.2.time) := by
              have hsub2 : List.Sublist (c :: l2) (a :: t) := by
                rw [hl]
                exact List.sublist_append_right l1 (c :: l2)
              exact List.Pairwise.sublist hsub2 hsorted
            exact (List.pairwise_cons.1 hpw).1 ej hejl2
        | succ k' =>
          cases j with
          | zero => omega
          | succ j' =>
            have hk' : (ctsortAux children f
                (removeParent ps (childrenOf children c.1) c.1) rest).get? k' = some ek := by
              simpa using hk
            have hj' : (ctsortAux children f
                (removeParent ps (childrenOf children c.1) c.1) rest).get? j' = some ej := by
              simpa using hj
            apply ihchrono k' j' ek ej (Nat.le_of_succ_le_succ hkj) hk' hj'
            intro p hp
            have := hpall p hp
            simp only [List.take_succ_cons, List.map_cons, List.mem_append,
              List.mem_cons] at this ⊢
            tauto

theorem alookup_map_entry (f : CommitInfo → List Hash) :
    ∀ (l : List CommitPair), NodupKeys l → ∀ e ∈ l,
      alookup e.1 (l.map (fun d => (d.1, f d.2))) = some (f e.2) := by
  intro l
  induction l with
  | nil => intro _ e he; simp at he
  | cons a r ih =>
    intro hnd e he
    rw [NodupKeys, List.map_cons, List.nodup_cons] at hnd
    rcases List.mem_cons.1 he with h | h
    · subst h
      rw [List.map_cons, alookup_cons, if_pos rfl]
    · have hne : a.1 ≠ e.1 := by
        intro hae
        exact hnd.1 (hae ▸ List.mem_map_of_mem Prod.fst h)
      rw [List.map_cons, alookup_cons, if_neg hne]
      exact ih hnd.2 e h

theorem ctsort_props (l : List CommitPair) (children : List (Hash × List Hash))
    (rank : Hash → Nat)
    (hnd : NodupKeys l)
    (hclo : ∀ e ∈ l, ∀ p ∈ e.2.parents, p ∈ l.map Prod.fst)
    (hcon : ∀ e ∈ l, ∀ p ∈ e.2.parents, e.1 ∈ childrenOf children p)
    (hrank : ∀ e ∈ l, ∀ p ∈ e.2.parents, rank p < rank e.1) :
    (∀ j e, (ctsort l children).get? j = some e → ∀ p ∈ e.2.parents,
      ∃ i d, i < j ∧ (ctsort l children).get? i = some d ∧ d.1 = p) ∧
    (∀ k j ek ej, k ≤ j → (ctsort l children).get? k = some ek →
      (ctsort l children).get? j = some ej →
      (∀ p ∈ ej.2.parents, p ∈ ((ctsort l children).take k).map Prod.fst) →
      ek.2.time ≤ ej.2.time) := by
  have hperm : List.Perm (sortTime l) l := sortKey_perm (fun e : CommitPair => e.2.time) l
  have hmem_iff : ∀ e : CommitPair, e ∈ sortTime l ↔ e ∈ l := fun e => hperm.mem_iff
  have hnd' : NodupKeys (sortTime l) := (List.Perm.nodup_iff (hperm.map Prod.fst)).2 hnd
  have hps0 : ∀ e ∈ sortTime l, alookup e.1 (initParents (sortTime l)) =
      some (e.2.parents.filter (fun q => !(elemB q ([] : List Hash)))) := by
    intro e he
    have h1 : alookup e.1 (initParents (sortTime l)) = some e.2.parents :=
      alookup_map_entry (fun ci => ci.parents) (sortTime l) hnd' e he
    rw [h1]
    congr 1
    exact (List.filter_eq_self.2 (fun a _ => rfl)).symm
  have hclo0 : ∀ e ∈ sortTime l, ∀ p ∈ e.2.parents,
      p ∈ ([] : List Hash) ∨ ∃ d ∈ sortTime l, d.1 = p := by
    intro e he p hp
    right
    obtain ⟨d, hd, hdp⟩ := List.mem_map.1 (hclo e ((hmem_iff e).1 he) p hp)
    exact ⟨d, (hmem_iff d).2 hd, hdp⟩
  have hrank0 : ∀ e ∈ sortTime l, ∀ p ∈ e.2.parents, rank p < rank e.1 :=
    fun e he => hrank e ((hmem_iff e).1 he)
  have hcon0 : ∀ e ∈ sortTime l, ∀ p ∈ e.2.parents, e.1 ∈ childrenOf children p :=
    fun e he => hcon e ((hmem_iff e).1 he)
  have hsorted0 : (sortTime l).Pairwise (fun a b => a.2.time ≤ b.2.time) :=
    sortKey_pairwise (fun e => e.2.time) l
  obtain ⟨htopo, hchrono⟩ :=
    ctsortAux_main children rank (sortTime l).length (sortTime l)
      (initParents (sortTime l)) [] (le_refl _) hps0 hclo0 hrank0 hcon0 hsorted0
  constructor
  · intro j e hj p hp
    rcases htopo j e hj p hp with h1 | h2
    · simp at h1
    · exact h2
  · intro k j ek ej hkj hk hj hpall
    apply hchrono k j ek ej hkj hk hj
    intro p hp
    simpa using hpall p hp

/-- C4 (amended): provided every parent of every commit is itself in the
commit map (no shallow history), the children map records every
parent-child edge, keys are distinct and the parent relation is acyclic
(witnessed by a rank function), the chrono-topological sort (a) emits every
commit after all of its parents, and (b) at each step `k` emits a commit
whose committer timestamp is minimal among the still-pending candidates
whose parents have all already been emitted.  (The counterexample shows
the parent-closure hypothesis is necessary: a missing parent blocks its
child until the remainder is flushed in plain timestamp order.) -/

theorem ctsort_chrono_topological (l : List CommitPair) (children : List (Hash × List Hash))
    (rank : Hash → Nat)
    (hnd : NodupKeys l)
    (hclo : ∀ e ∈ l, ∀ p ∈ e.2.parents, p ∈ l.map Prod.fst)
    (hcon : ∀ e ∈ l, ∀ p ∈ e.2.parents, e.1 ∈ childrenOf children p)
    (hrank : ∀ e ∈ l, ∀ p ∈ e.2.parents, rank p < rank e.1) :
    (∀ j e, (ctsort l children).get? j = some e → ∀ p ∈ e.2.parents,
      ∃ i d, i < j ∧ (ctsort l children).get? i = some d ∧ d.1 = p) ∧
    (∀ k j ek ej, k ≤ j → (ctsort l children).get? k = some ek →
      (ctsort l children).get? j = some ej →
      (∀ p ∈ ej.2.parents, p ∈ ((ctsort l children).take k).map Prod.fst) →
      ek.2.time ≤ ej.2.time) :=
  ctsort_props l children rank hnd hclo hcon hrank

/-- Witness for C4 (amended): on two parentless roots with times 0 and 2,
the commit emitted first has the smaller committer timestamp. -/

theorem ctsort_chrono_topological_witness : contA.time ≤ contB.time :=
  (ctsort_chrono_topological [(1, contA), (3, contB)] [] (fun _ => 0)
    (by decide) (by decide) (by decide) (by decide)).2 0 1 (1, contA) (3, contB)
    (by omega) (by decide) (by decide) (by decide)

theorem processAll_index (lk : Hash → Option CommitInfo)
    (heads : List (Hash × List String)) (children childrenHead : List (Hash × List Hash)) :
    ∀ (rest : List CommitPair) (st : LayoutState) (done : List CommitPair),
      st.locations.length = done.length →
      (∀ j e, done.get? j = some e →
        ∃ x, alookup e.1 st.locations = some (x, (j : Int))) →
      (∀ el ∈ st.locations,
        ∃ j d, done.get? j = some d ∧ d.1 = el.1 ∧ el.2.2 = ((j : Nat) : Int)) →
      NodupKeys (done ++ rest) →
      (∀ j e, (done ++ rest).get? j = some e →
        ∃ x, alookup e.1 (processAll lk heads children childrenHead st rest).locations =
          some (x, (j : Int))) ∧
      (∀ el ∈ (processAll lk heads children childrenHead st rest).locations,
        ∃ j d, (done ++ rest).get? j = some d ∧ d.1 = el.1 ∧ el.2.2 = ((j : Nat) : Int)) := by
  intro rest
  induction rest with
  | nil =>
    intro st done _ hidx hl3 _
    constructor
    · intro j e hj
      exact hidx j e (by simpa using hj)
    · intro el hel
      obtain ⟨j, d, h1, h2, h3⟩ := hl3 el hel
      exact ⟨j, d, by simpa using h1, h2, h3⟩
  | cons cur future ih =>
    intro st done hlen hidx hl3 hnd
    have happ : (done ++ [cur]) ++ future = done ++ cur :: future := by simp
    have hnd' : NodupKeys ((done ++ [cur]) ++ future) := by rw [happ]; exact hnd
    have hdisj : ∀ e ∈ done, e.1 ≠ cur.1 := by
      intro e he hec
      rw [NodupKeys, List.map_append, List.nodup_append] at hnd
      exact hnd.2.2 (List.mem_map_of_mem Prod.fst he)
        (by rw [hec]; exact List.mem_map_of_mem Prod.fst (List.mem_cons_self cur future))
    obtain ⟨xv, hlocs⟩ : ∃ xv,
        (stepCommit lk heads children childrenHead st cur future).locations =
          (cur.1, (xv, (st.locations.length : Int))) :: st.locations :=
      ⟨_, stepCommit_locations lk heads children childrenHead st cur future⟩
    have hlen' : (stepCommit lk heads children childrenHead st cur future).locations.length =
        (done ++ [cur]).length := by
      rw [hlocs]
      simp [hlen]
    have hidx' : ∀ j e, (done ++ [cur]).get? j = some e →
        ∃ x, alookup e.1 (stepCommit lk heads children childrenHead st cur future).locations =
          some (x, (j : Int)) := by
      intro j e hj
      by_cases hjlt : j < done.length
      · have hdone : done.get? j = some e := by
          rw [List.get?_append hjlt] at hj
          exact hj
        obtain ⟨x, hx⟩ := hidx j e hdone
        refine ⟨x, ?_⟩
        rw [hlocs, alookup_cons, if_neg ?_]
        · exact hx
        · have hemem : e ∈ done := List.get?_mem hdone
          exact fun hce => (hdisj e hemem) hce.symm
      · have hjlen : j < (done ++ [cur]).length := by
          obtain ⟨hb, _⟩ := List.get?_eq_some.1 hj
          exact hb
        rw [List.length_append, List.length_singleton] at hjlen
        have hjeq : j = done.length := by omega
        subst hjeq
        rw [List.get?_concat_length] at hj
        have hcur : e = cur := (Option.some.inj hj).symm
        subst hcur
        refine ⟨xv, ?_⟩
        rw [hlocs, alookup_cons, if_pos rfl, hlen]
    have hl3' : ∀ el ∈ (stepCommit lk heads children childrenHead st cur future).locations,
        ∃ j d, (done ++ [cur]).get? j = some d ∧ d.1 = el.1 ∧ el.2.2 = ((j : Nat) : Int) := by
      intro el hel
      rw [hlocs] at hel
      rcases List.mem_cons.1 hel with h | h
      · subst h
        refine ⟨done.length, cur, List.get?_concat_length done cur, rfl, ?_⟩
        simp [hlen]
      · obtain ⟨j, d, h1, h2, h3⟩ := hl3 el h
        have hjlt : j < done.length := by
          obtain ⟨hb, _⟩ := List.get?_eq_some.1 h1
          exact hb
        exact ⟨j, d, by rw [List.get?_append hjlt]; exact h1, h2, h3⟩
    have hmain := ih (stepCommit lk heads children childrenHead st cur future)
      (done ++ [cur]) hlen' hidx' hl3' hnd'
    constructor
    · intro j e hj
      apply hmain.1 j e
      rw [happ]
      exact hj
    · intro el hel
      obtain ⟨j, d, h1, h2, h3⟩ := hmain.2 el hel
      rw [happ] at h1
      exact ⟨j, d, h1, h2, h3⟩

theorem get?_key_unique {α : Type} {l : List (Hash × α)} (hnd : NodupKeys l)
    {i j : Nat} {a b : Hash × α}
    (hi : l.get? i = some a) (hj : l.get? j = some b) (hk : a.1 = b.1) : i = j := by
  have h1 : (l.map Prod.fst).get? i = some a.1 := by rw [List.get?_map, hi]; rfl
  have h2 : (l.map Prod.fst).get? j = some b.1 := by rw [List.get?_map, hj]; rfl
  have hlen : i < (l.map Prod.fst).length := by
    obtain ⟨hb, _⟩ := List.get?_eq_some.1 h1
    exact hb
  exact List.get?_inj hlen hnd (by rw [h1, h2, hk])

/-- C1 (amended): provided every parent of every commit is itself in the
commit map (no shallow history), the children map records every
parent-child edge, keys are distinct and the parent relation is acyclic
(witnessed by a rank function), the emission order of the layout is a valid
topological order: for every placed commit and every placed parent of it,
`y(c) > y(p)`.  (The counterexample shows the parent-closure hypothesis is
necessary: a missing parent blocks its child in the sort and the flushed
remainder can place a child below its placed parent.) -/

theorem arrange_topological (l : List CommitPair) (heads : List (Hash × List String))
    (children : List (Hash × List Hash)) (rank : Hash → Nat)
    (hnd : NodupKeys l)
    (hclo : ∀ e ∈ l, ∀ p ∈ e.2.parents, p ∈ l.map Prod.fst)
    (hcon : ∀ e ∈ l, ∀ p ∈ e.2.parents, e.1 ∈ childrenOf children p)
    (hrank : ∀ e ∈ l, ∀ p ∈ e.2.parents, rank p < rank e.1) :
    ∀ hc ci, (hc, ci) ∈ l → ∀ p ∈ ci.parents, ∀ xc yc xp yp,
      alookup hc (arrangeCommits l heads children) = some (xc, yc) →
      alookup p (arrangeCommits l heads children) = some (xp, yp) → yp < yc := by
  intro hc ci hmem p hp xc yc xp yp hlkc hlkp
  have hperm_out : List.Perm (ctsort l children) l :=
    (ctsortAux_perm children _ _ _).trans (sortKey_perm _ l)
  have hnd_out : NodupKeys (ctsort l children) :=
    (List.Perm.nodup_iff (hperm_out.map Prod.fst)).2 hnd
  obtain ⟨htopo, _⟩ := ctsort_props l children rank hnd hclo hcon hrank
  cases hct : ctsort l children with
  | nil =>
    exfalso
    have hmo : (hc, ci) ∈ ctsort l children := hperm_out.mem_iff.2 hmem
    rw [hct] at hmo
    simp at hmo
  | cons first rest =>
    have harr : arrangeCommits l heads children =
        (processAll (fun q => alookup q l) heads children
          (buildChildrenHead (buildHeadChildren heads children))
          { refsLevels := first.2.references.foldl (fun acc r => setRL acc r 0) [],
            locations := [(first.1, (0, 0))],
            headChildren := buildHeadChildren heads children,
            seenHeads := [] } rest).locations := by
      unfold arrangeCommits arrangeLayout
      rw [hct]
    have hndfr : NodupKeys ([first] ++ rest) := by
      rw [List.singleton_append, ← hct]
      exact hnd_out
    obtain ⟨hidxAll, hl3All⟩ := processAll_index (fun q => alookup q l) heads children
      (buildChildrenHead (buildHeadChildren heads children)) rest
      { refsLevels := first.2.references.foldl (fun acc r => setRL acc r 0) [],
        locations := [(first.1, (0, 0))],
        headChildren := buildHeadChildren heads children,
        seenHeads := [] } [first] rfl
      (by
        intro j e hj
        cases j with
        | zero =>
          have he : first = e := by simpa using hj
          rw [← he]
          refine ⟨0, ?_⟩
          rw [alookup_cons, if_pos rfl]
          norm_num
        | succ j' => simp at hj)
      (by
        intro el hel
        have he : el = (first.1, (0, 0)) := by simpa using hel
        subst he
        exact ⟨0, first, rfl, rfl, rfl⟩)
      hndfr
    rw [harr] at hlkc hlkp
    have hfr : ([first] ++ rest) = first :: rest := rfl
    obtain ⟨jc, dc, hjc, hdc1, hyc⟩ := hl3All (hc, (xc, yc)) (alookup_some_mem hlkc)
    obtain ⟨jp, dp, hjp, hdp1, hyp2⟩ := hl3All (p, (xp, yp)) (alookup_some_mem hlkp)
    rw [hfr, ← hct] at hjc hjp
    have hdc_mem : dc ∈ ctsort l children := List.get?_mem hjc
    have hdc_l : dc ∈ l := hperm_out.mem_iff.1 hdc_mem
    have hdc_eq : dc = (hc, ci) := entry_unique hnd hdc_l hmem hdc1
    have hp2 : p ∈ dc.2.parents := by rw [hdc_eq]; exact hp
    obtain ⟨i, d, hij, hid, hdp⟩ := htopo jc dc hjc p hp2
    have hieq : i = jp := get?_key_unique hnd_out hid hjp (by rw [hdp, hdp1])
    rw [hieq] at hij
    simp only at hyc hyp2
    rw [hyc, hyp2]
    exact_mod_cast hij

/-- Witness for C1 (amended): in the linear scenario, the parent commit 2
of commit 3 is emitted strictly earlier. -/

theorem arrange_topological_witness : (1 : Int) < 2 :=
  arrange_topological linearCommits linearHeads linearChildren (fun h => h)
    (by decide) (by decide) (by decide) (by decide) 3 linearC (by decide) 2 (by decide)
    0 2 0 1 (by decide) (by decide)

/-! ### Determinism of the layout -/

theorem sorted_perm_unique :
    ∀ (m1 m2 : List CommitPair), List.Perm m1 m2 →
      m1.Pairwise (fun a b => a.2.time ≤ b.2.time) →
      m2.Pairwise (fun a b => a.2.time ≤ b.2.time) →
      (∀ a ∈ m1, ∀ b ∈ m1, a.2.time = b.2.time → a = b) →
      m1 = m2 := by
  intro m1
  induction m1 with
  | nil =>
    intro m2 hperm _ _ _
    exact (List.Perm.eq_nil hperm.symm).symm
  | cons a t1 ih =>
    intro m2 hperm hs1 hs2 hinj
    cases m2 with
    | nil =>
      exact absurd (List.Perm.eq_nil hperm) (by simp)
    | cons b t2 =>
      have hab : a = b := by
        have hamem : a ∈ b :: t2 := hperm.mem_iff.1 (List.mem_cons_self a t1)
        rcases List.mem_cons.1 hamem with h | h
        · exact h
        · have hba : b.2.time ≤ a.2.time := (List.pairwise_cons.1 hs2).1 a h
          have hbmem : b ∈ a :: t1 := hperm.symm.mem_iff.1 (List.mem_cons_self b t2)
          rcases List.mem_cons.1 hbmem with h2 | h2
          · exact h2.symm
          · have hab2 : a.2.time ≤ b.2.time := (List.pairwise_cons.1 hs1).1 b h2
            exact hinj a (List.mem_cons_self a t1) b (List.mem_cons_of_mem a h2)
              (le_antisymm hab2 hba)
      subst hab
      have hperm' : List.Perm t1 t2 := hperm.cons_inv
      have ht : t1 = t2 := ih t2 hperm' (List.pairwise_cons.1 hs1).2
        (List.pairwise_cons.1 hs2).2
        (fun x hx y hy => hinj x (List.mem_cons_of_mem a hx) y (List.mem_cons_of_mem a hy))
      rw [ht]

theorem sortTime_unique (l1 l2 : List CommitPair)
    (hperm : List.Perm l1 l2)
    (hinj : ∀ a ∈ l1, ∀ b ∈ l1, a.2.time = b.2.time → a = b) :
    sortTime l1 = sortTime l2 := by
  apply sorted_perm_unique
  · exact (sortKey_perm _ l1).trans (hperm.trans (sortKey_perm _ l2).symm)
  · exact sortKey_pairwise _ l1
  · exact sortKey_pairwise _ l2
  · intro a ha b hb heq
    exact hinj a ((sortKey_perm _ l1).mem_iff.1 ha) b ((sortKey_perm _ l1).mem_iff.1 hb) heq

theorem alookup_perm {κ α : Type} [DecidableEq κ] (l1 l2 : List (κ × α))
    (hperm : List.Perm l1 l2) (hnd : NodupKeys l1) (k : κ) :
    alookup k l1 = alookup k l2 := by
  have hnd2 : NodupKeys l2 := (List.Perm.nodup_iff (hperm.map Prod.fst)).1 hnd
  cases h : alookup k l1 with
  | some v =>
    have hm : (k, v) ∈ l2 := hperm.mem_iff.1 (alookup_some_mem h)
    exact (mem_alookup_of_nodup hnd2 hm).symm
  | none =>
    have hk : k ∉ keysOf l1 := (alookup_none_iff k l1).1 h
    have hk2 : k ∉ keysOf l2 := fun hmm => hk ((hperm.map Prod.fst).mem_iff.2 hmm)
    exact ((alookup_none_iff k l2).2 hk2).symm

/-- C3 (amended): for a fixed commit map whose committer timestamps are
pairwise distinct (along with fixed heads and children maps), the layout is
a function of the map alone — any two enumeration orders of the map produce
identical positions.  (The counterexample shows the distinct-timestamps
hypothesis is necessary: the pre-sort inherits the enumeration order of the
commits map among timestamp ties.) -/

theorem arrange_deterministic (l1 l2 : List CommitPair)
    (heads : List (Hash × List String)) (children : List (Hash × List Hash))
    (hperm : List.Perm l1 l2) (hnd : NodupKeys l1)
    (hinj : ∀ a ∈ l1, ∀ b ∈ l1, a.2.time = b.2.time → a = b) :
    arrangeCommits l1 heads children = arrangeCommits l2 heads children := by
  have hsort : sortTime l1 = sortTime l2 := sortTime_unique l1 l2 hperm hinj
  have hlk : (fun q : Hash => alookup q l1) = (fun q => alookup q l2) :=
    funext (fun q => alookup_perm l1 l2 hperm hnd q)
  unfold arrangeCommits arrangeLayout ctsort
  rw [hsort, hlk]

/-- Witness for C3 (amended): two enumeration orders of the linear
three-commit map give the same positions. -/

theorem arrange_deterministic_witness :
    arrangeCommits [(2, linearB), (1, linearA), (3, linearC)] linearHeads linearChildren =
      arrangeCommits linearCommits linearHeads linearChildren :=
  arrange_deterministic [(2, linearB), (1, linearA), (3, linearC)] linearCommits
    linearHeads linearChildren (by decide) (by decide) (by decide)

end GitTree

